import Mathlib

/-!
Verification development for the auto-openspg-schema Schema Consistency
Engine (`src/schema_manager.py`, `src/schema_generator.py`).

Python dictionaries are modelled as association lists (`List (String × α)`)
with insertion-order semantics: assignment to an existing key updates the
value in place, assignment to a fresh key appends at the end, deletion
removes the key, iteration follows list order.  Python sets whose only
observable use is membership are modelled as duplicate-free lists.
Timestamp fields (`created`, `last_modified`, `created_at`) are not
modelled: no claim mentions them and they carry no graph structure.
Floating point similarity (`overlap/total > 0.7`) is modelled by the exact
rational comparison `10 * overlap > 7 * total`.
-/

set_option autoImplicit false

namespace Spg

universe u

variable {α : Type u}

/-- Python dict lookup `d.get(k)`: first entry with the key. -/
def dictGet : List (String × α) → String → Option α
  | [], _ => none
  | (k', v') :: rest, k => if k' = k then some v' else dictGet rest k

/-- Python dict assignment `d[k] = v`: update in place if the key is
present, append at the end otherwise. -/
def dictInsert : List (String × α) → String → α → List (String × α)
  | [], k, v => [(k, v)]
  | (k', v') :: rest, k, v =>
    if k' = k then (k, v) :: rest else (k', v') :: dictInsert rest k v

/-- Python `d1.update(d2)`. -/
def dictUpdate (d₁ d₂ : List (String × α)) : List (String × α) :=
  d₂.foldl (fun acc p => dictInsert acc p.1 p.2) d₁

/-- Python `del d[k]`. -/
def dictRemove (d : List (String × α)) (k : String) : List (String × α) :=
  d.filter (fun p => p.1 ≠ k)

/-- In-place mutation of the value stored under a key (`d[k].field = v`). -/
def dictModify (d : List (String × α)) (k : String) (f : α → α) :
    List (String × α) :=
  d.map (fun p => if p.1 = k then (p.1, f p.2) else p)

/-- The keys of a dict, in insertion order. -/
def dictKeys (d : List (String × α)) : List String :=
  d.map (·.1)

/-- Membership-set insertion (Python `set.add`). -/
def listInsert (l : List String) (x : String) : List String :=
  if x ∈ l then l else l ++ [x]

/-- Python substring test `needle in hay`. -/
def strContains (hay needle : String) : Bool :=
  (List.range (hay.toList.length + 1)).any
    (fun i => needle.toList.isPrefixOf (hay.toList.drop i))

/-- Python `str.strip()` with no argument: drop whitespace at both
ends.  (Implemented over char lists so that proofs can evaluate it;
the core `String.trim` does not reduce in the kernel.) -/
def pyStrip (s : String) : String :=
  String.mk (((s.toList.dropWhile Char.isWhitespace).reverse.dropWhile
    Char.isWhitespace).reverse)

/-- Python `str.lower()`.  ASCII case folding; the CJK characters the
source handles have no case. -/
def pyLower (s : String) : String :=
  String.mk (s.toList.map Char.toLower)

/-- Replace engine over char lists, fuelled by the input length (the
patterns used by the source are all non-empty, so the fuel always
suffices). -/
def replaceAux (pat repl : List Char) : Nat → List Char → List Char
  | 0, l => l
  | _ + 1, [] => []
  | n + 1, c :: cs =>
    if pat.isPrefixOf (c :: cs) then
      repl ++ replaceAux pat repl n ((c :: cs).drop pat.length)
    else c :: replaceAux pat repl n cs

/-- Python `str.replace` (left-to-right, non-overlapping). -/
def pyReplace (s pat repl : String) : String :=
  String.mk (replaceAux pat.toList repl.toList s.toList.length s.toList)

/-- Helper of `pySplitWs`: words of a char list, with the current word
accumulated in reverse. -/
def wordsAux : List Char → List Char → List String
  | [], acc => if acc.isEmpty then [] else [String.mk acc.reverse]
  | c :: cs, acc =>
    if c.isWhitespace then
      if acc.isEmpty then wordsAux cs []
      else String.mk acc.reverse :: wordsAux cs []
    else wordsAux cs (c :: acc)

/-- Python `str.split()` (split on whitespace runs, dropping empties). -/
def pySplitWs (s : String) : List String :=
  wordsAux s.toList []

/-- Python `str.isalnum` on one character.  Python's test is
unicode-aware; we cover ASCII letters and digits and the CJK unified
ideograph block, which is all the source data exercises. -/
def pyAlnumChar (c : Char) : Bool :=
  c.isAlphanum || (0x4e00 ≤ c.toNat && c.toNat ≤ 0x9fff)

/-- Python `str.isalnum` (empty string is not alphanumeric). -/
def pyIsAlnum (s : String) : Bool :=
  s ≠ "" && s.toList.all pyAlnumChar

/-- Name normalisation used by the duplicate detector:
`name.lower().replace('_', '').replace('-', '')`. -/
def normName (s : String) : String :=
  pyReplace (pyReplace (pyLower s) "_" "") "-" ""

/-! ## Data model

Entities, property definitions and relation definitions as the Python
code stores them.  Optional dict keys are modelled with `Option`
(`none` = key absent).  Values that in Python may be either a plain
string or a dict are tagged unions. -/

/-- Nested sub-property definition (one level only, as in the source). -/
structure SubPropFields where
  name : Option String := none
  type : Option String := none
  chinese_name : Option String := none
  description : Option String := none
  constraint : Option String := none
  deriving DecidableEq, Repr

/-- Dict-shaped property definition. -/
structure PropFields where
  name : Option String := none
  type : Option String := none
  chinese_name : Option String := none
  description : Option String := none
  constraint : Option String := none
  index : Option String := none
  properties : List (String × SubPropFields) := []
  deriving DecidableEq, Repr

/-- A value of an entity's `properties` dict: either a plain string
(legacy format) or a property-definition dict. -/
inductive PropVal where
  | pstr (s : String)
  | pdict (d : PropFields)
  deriving DecidableEq, Repr

/-- Dict-shaped relation definition. -/
structure RelData where
  name : Option String := none
  target : Option String := none
  aliases : Option (List String) := none
  constraint : Option String := none
  description : Option String := none
  chinese_name : Option String := none
  properties : List (String × SubPropFields) := []
  deriving DecidableEq, Repr

/-- A value of an entity's `relations` dict: either a plain target
string (old format) or a relation-definition dict. -/
inductive RelDef where
  | oldFmt (s : String)
  | newFmt (d : RelData)
  deriving DecidableEq, Repr

/-- An entity as stored in `SchemaManager.entities`.  String fields read
with `.get(key, '')` in the source are plain `String` with `""` for an
absent key; keys that are only sometimes present are `Option`. -/
structure Entity where
  name : String := ""
  chinese_name : String := ""
  english_name : Option String := none
  description : String := ""
  typ : Option String := none
  openspg_type : String := "EntityType"
  entity_type : Option String := none
  properties : List (String × PropVal) := []
  relations : List (String × RelDef) := []
  auto_created : Bool := false
  deriving DecidableEq, Repr

/-- The entity map `self.entities`. -/
abbrev Graph := List (String × Entity)

/-- Lookup with the empty-dict default used by `self.entities.get(k, {})`. -/
def entGet (g : Graph) (k : String) : Entity :=
  (dictGet g k).getD {}

/-! ## SchemaManager._build_standard_properties -/

/-- Does the (lower-cased, space/paren-stripped) property key count as a
description key?  (`'desc' in prop_lower or 'description' in prop_lower
or '描述' in prop_name`). -/
def isDescKey (propName : String) : Bool :=
  let lower := pyReplace (pyReplace (pyReplace (pyLower propName) " " "") "(" "") ")" ""
  strContains lower "desc" || strContains lower "description" ||
    strContains propName "描述"

/-- Does the key count as a name key? (`'name' in prop_lower or '名称' in
prop_name`). -/
def isNameKey (propName : String) : Bool :=
  let lower := pyReplace (pyReplace (pyReplace (pyLower propName) " " "") "(" "") ")" ""
  strContains lower "name" || strContains propName "名称"

/-- One step of the custom-property loop of
`SchemaManager._build_standard_properties`. -/
def buildStdPropStep (acc : List (String × PropVal)) (p : String × PropVal) :
    List (String × PropVal) :=
  if isDescKey p.1 || isNameKey p.1 then acc
  else
    match p.2 with
    | .pdict d =>
      if d.name.isSome && d.type.isSome then
        dictInsert acc p.1 (.pdict
          { name := some (d.name.getD (p.1 ++ "(" ++ p.1 ++ ")")),
            type := some (d.type.getD "Text"),
            constraint := some (d.constraint.getD "NotNull") })
      else if strContains p.1 "(" && strContains p.1 ")" then
        dictInsert acc p.1 (.pdict
          { name := some p.1, type := some "Text", constraint := some "NotNull" })
      else
        dictInsert acc p.1 (.pdict
          { name := some (p.1 ++ "(" ++ p.1 ++ ")"), type := some "Text",
            constraint := some "NotNull" })
    | .pstr _ =>
      if strContains p.1 "(" && strContains p.1 ")" then
        dictInsert acc p.1 (.pdict
          { name := some p.1, type := some "Text", constraint := some "NotNull" })
      else
        dictInsert acc p.1 (.pdict
          { name := some (p.1 ++ "(" ++ p.1 ++ ")"), type := some "Text",
            constraint := some "NotNull" })

/-- The standard `desc` placeholder property. -/
def stdDescProp : PropVal :=
  .pdict { name := some "desc(描述)", type := some "Text",
           constraint := some "NotNull" }

/-- The standard `name` placeholder property. -/
def stdNameProp : PropVal :=
  .pdict { name := some "name(名称)", type := some "Text",
           constraint := some "NotNull" }

/-- `SchemaManager._build_standard_properties`. -/
def buildStandardProperties (custom : List (String × PropVal)) :
    List (String × PropVal) :=
  let flags := custom.foldl
    (fun (f : Bool × Bool) p =>
      if isDescKey p.1 then (true, f.2)
      else if isNameKey p.1 then (f.1, true) else f)
    (false, false)
  let base : List (String × PropVal) :=
    (if !flags.1 then [("desc", stdDescProp)] else []) ++
    (if !flags.2 then [("name", stdNameProp)] else [])
  custom.foldl buildStdPropStep base

/-! ## SchemaManager._determine_entity_type -/

/-- The keyword table of `_determine_entity_type`, in source order. -/
def typeKeywords : List (String × List String) :=
  [("Person", ["人员", "人物", "工程师", "设计师", "专家", "负责人"]),
   ("Organization", ["公司", "组织", "机构", "部门", "团队", "单位"]),
   ("Building", ["建筑", "房屋", "厂房", "车间", "办公楼", "结构"]),
   ("ArtificialObject", ["设备", "机器", "工具", "仪器", "装置", "系统", "组件"]),
   ("GeographicLocation", ["地点", "位置", "区域", "场所", "地址", "坐标"]),
   ("Date", ["时间", "日期", "期限", "周期", "阶段"]),
   ("Event", ["事件", "活动", "会议", "检查", "测试", "验收"]),
   ("Works", ["文档", "图纸", "标准", "规范", "手册", "报告"]),
   ("Concept", ["概念", "理论", "方法", "技术", "工艺", "流程"])]

/-- `SchemaManager._determine_entity_type`. -/
def determineEntityType (entityName description : String) : String :=
  let text := pyLower (entityName ++ " " ++ description)
  match typeKeywords.find? (fun tk => tk.2.any (fun kw => strContains text kw)) with
  | some tk => tk.1
  | none => "Others"

/-! ## SchemaManager.add_or_update_entity

Optional Python arguments that default to `None` are passed as `""`
(for strings; Python treats both as falsy) or `[]` (for dicts). -/

/-- Incoming `properties` is a complete property definition iff it is
non-empty and some value is a dict containing a `name` key. -/
def propsAreComplete (properties : List (String × PropVal)) : Bool :=
  !properties.isEmpty && properties.any (fun p =>
    match p.2 with
    | .pdict d => d.name.isSome
    | .pstr _ => false)

/-- `SchemaManager.add_or_update_entity`. -/
def addOrUpdateEntity (g : Graph) (entityName description : String)
    (properties : List (String × PropVal)) (chineseName : String)
    (relations : List (String × RelDef)) (openspgType entityType : String) :
    Graph :=
  match dictGet g entityName with
  | some old =>
    let mergedProperties :=
      if propsAreComplete properties then properties
      else dictUpdate old.properties (buildStandardProperties properties)
    let mergedRelations := dictUpdate old.relations relations
    let updated : Entity :=
      { old with
        description := description,
        properties := mergedProperties,
        relations := mergedRelations,
        chinese_name := if chineseName ≠ "" then chineseName else old.chinese_name,
        openspg_type := if openspgType ≠ "" then openspgType else old.openspg_type,
        typ := if entityType ≠ "" then some entityType else old.typ }
    dictInsert g entityName updated
  | none =>
    let finalOpenspgType :=
      if openspgType ≠ "" then openspgType
      else if entityType ≠ "" then entityType else "EntityType"
    let finalProperties :=
      if finalOpenspgType = "ConceptType" then properties
      else if propsAreComplete properties then properties
      else buildStandardProperties properties
    let newEntity : Entity :=
      { name := entityName,
        chinese_name := if chineseName ≠ "" then chineseName else entityName,
        description := description,
        typ := some (if entityType ≠ "" then entityType
                     else determineEntityType entityName description),
        openspg_type := finalOpenspgType,
        properties := finalProperties,
        relations := relations }
    dictInsert g entityName newEntity

/-! ## SchemaManager._create_missing_entity -/

/-- The stub entity built by `_create_missing_entity`.  The source's
chinese-name branch assigns `entity_name` in both arms, so
`chinese_name = entity_name` unconditionally. -/
def mkStub (entityName : String) : Entity :=
  { name := entityName,
    english_name := some entityName,
    chinese_name := entityName,
    description := "自动创建的实体：" ++ entityName,
    openspg_type := "EntityType",
    entity_type := some "Concept",
    properties := buildStandardProperties [],
    relations := [],
    auto_created := true }

/-! ## SchemaManager.validate_and_update_relations

The pass first builds the name indices (`chinese_to_english`,
`english_names`) from the live graph, then walks a snapshot of the
entity items.  Relation processing threads the entity map and the
english-name set (stub creation mutates both); the per-entity
`updated_relations` / `target_to_relations` accumulators are local.
The in-place write `relation_def['target'] = x` is modelled by
rebuilding the relation value, which is value-equivalent. -/

/-- One entity's contribution to the `chinese_to_english` index. -/
def cteStep (acc : List (String × String)) (p : String × Entity) :
    List (String × String) :=
  if p.2.chinese_name ≠ "" ∧ p.2.name ≠ "" then
    dictInsert acc p.2.chinese_name p.2.name
  else acc

/-- The `chinese_to_english` index: built over entity values, later
entries overwrite earlier ones on a shared chinese name. -/
def buildCte (g : Graph) : List (String × String) :=
  g.foldl cteStep []

/-- One entity's contribution to the `english_names` set. -/
def englishStep (acc : List String) (p : String × Entity) : List String :=
  if p.2.chinese_name ≠ "" ∧ p.2.name ≠ "" then listInsert acc p.2.name
  else acc

/-- The `english_names` set. -/
def buildEnglish (g : Graph) : List String :=
  g.foldl englishStep []

/-- State threaded through one entity's relation loop. -/
structure RState where
  updated : List (String × RelData) := []
  ttr : List (String × List String) := []
  entityUpdated : Bool := false
  entities : Graph := []
  english : List String := []
  deriving Repr

/-- Append a relation key to its target's group in
`target_to_relations`. -/
def ttrAdd (ttr : List (String × List String)) (target relKey : String) :
    List (String × List String) :=
  match dictGet ttr target with
  | some ks => dictInsert ttr target (ks ++ [relKey])
  | none => ttr ++ [(target, [relKey])]

/-- A relation target is skipped when it is `None`, not a string, or
empty after `strip()`; the surviving string case is a non-blank
string.  (A dict value without a `target` key falls into the old-format
branch and is likewise skipped, since a dict is not a string.) -/
def validTargetStr (t : String) : Bool :=
  pyStrip t ≠ ""

/-- One iteration of the relation loop of
`validate_and_update_relations`. -/
def processRel (cte : List (String × String)) (r : RState)
    (item : String × RelDef) : RState :=
  match item.2 with
  | .newFmt d =>
    match d.target with
    | none => r
    | some t =>
      if ¬ validTargetStr t then r
      else
        match dictGet cte t with
        | some et =>
          { r with
            updated := dictInsert r.updated item.1 { d with target := some et },
            ttr := ttrAdd r.ttr et item.1,
            entityUpdated := true }
        | none =>
          if t ∈ r.english then
            { r with
              updated := dictInsert r.updated item.1 d,
              ttr := ttrAdd r.ttr t item.1 }
          else
            { r with
              updated := dictInsert r.updated item.1 d,
              ttr := ttrAdd r.ttr t item.1,
              entities := dictInsert r.entities t (mkStub t),
              english := listInsert r.english t,
              entityUpdated := true }
  | .oldFmt s =>
    if ¬ validTargetStr s then r
    else
      match dictGet cte s with
      | some et =>
        { r with
          updated := dictInsert r.updated item.1
            { name := some item.1, target := some et },
          ttr := ttrAdd r.ttr et item.1,
          entityUpdated := true }
      | none =>
        if s ∈ r.english then
          { r with
            updated := dictInsert r.updated item.1
              { name := some item.1, target := some s },
            ttr := ttrAdd r.ttr s item.1 }
        else
          { r with
            updated := dictInsert r.updated item.1
              { name := some item.1, target := some s },
            ttr := ttrAdd r.ttr s item.1,
            entities := dictInsert r.entities s (mkStub s),
            english := listInsert r.english s,
            entityUpdated := true }

/-- Display name recorded when a redundant relation is merged away:
`updated_relations[key].get('name', key)`. -/
def mergedNameAt (updated : List (String × RelData)) (k : String) : String :=
  match dictGet updated k with
  | some d => d.name.getD k
  | none => k

/-- Collapse one duplicate-target group: keep the first relation key as
primary, append the display names of the rest to its `aliases`, delete
the rest. -/
def mergeGroup (updated : List (String × RelData))
    (grp : String × List String) : List (String × RelData) :=
  match grp.2 with
  | [] => updated
  | [_] => updated
  | primary :: rest =>
    let aliasAdds := rest.map (mergedNameAt updated)
    let withAliases := dictModify updated primary (fun d =>
      { d with aliases := some (d.aliases.getD [] ++ aliasAdds) })
    withAliases.filter (fun p => p.1 ∉ rest)

/-- The duplicate-relation merge loop over `target_to_relations`. -/
def mergeDupRels (ttr : List (String × List String))
    (updated : List (String × RelData)) : List (String × RelData) :=
  ttr.foldl mergeGroup updated

/-- State threaded through the entity loop. -/
structure VState where
  entities : Graph
  english : List String
  deriving Repr

/-- The relation loop of one entity, started from the current global
state. -/
def vaurInner (cte : List (String × String)) (st : VState) (e : Entity) :
    RState :=
  e.relations.foldl (processRel cte)
    { updated := [], ttr := [], entityUpdated := false,
      entities := st.entities, english := st.english }

/-- The final `updated_relations` dict of one entity, converted back to
relation values. -/
def vaurRelsOut (r : RState) : List (String × RelDef) :=
  (mergeDupRels r.ttr r.updated).map (fun p => (p.1, RelDef.newFmt p.2))

/-- The write-back condition
`entity_updated or updated_relations != relations` (the merge loop sets
`entity_updated` for every group of size ≥ 2; the dict comparison is by
value). -/
def vaurCond (r : RState) (e : Entity) : Bool :=
  (r.entityUpdated || r.ttr.any (fun p => 1 < p.2.length)) ||
    vaurRelsOut r ≠ e.relations

/-- Process one snapshot item of the entity loop. -/
def vaurStep (cte : List (String × String)) (st : VState)
    (item : String × Entity) : VState :=
  if item.2.relations.isEmpty then st
  else
    let r := vaurInner cte st item.2
    if vaurCond r item.2 then
      { entities := dictModify r.entities item.1
          (fun e => { e with relations := vaurRelsOut r }),
        english := r.english }
    else
      { entities := r.entities, english := r.english }

/-- `SchemaManager.validate_and_update_relations` (its effect on the
entity map). -/
def validateAndUpdateRelations (g : Graph) : Graph :=
  let cte := buildCte g
  (g.foldl (vaurStep cte) { entities := g, english := buildEnglish g }).entities

/-! ## SchemaManager.merge_and_remove_duplicate_entities -/

/-- `SchemaManager._are_entities_similar`.  The arguments are the two
entity keys; entity data is looked up with an empty-dict default. -/
def areEntitiesSimilar (g : Graph) (k1 k2 : String) : Bool :=
  let e1 := entGet g k1
  let e2 := entGet g k2
  let n1 := normName k1
  let n2 := normName k2
  if n1 = n2 then true
  else
    let c1 := pyStrip e1.chinese_name
    let c2 := pyStrip e2.chinese_name
    if c1 ≠ "" ∧ c2 ≠ "" ∧ c1 = c2 then true
    else if 3 < n1.length ∧ 3 < n2.length ∧
        (strContains n2 n1 ∨ strContains n1 n2) then true
    else
      let d1 := pyLower e1.description
      let d2 := pyLower e2.description
      if d1 ≠ "" ∧ d2 ≠ "" ∧ 10 < d1.length ∧ 10 < d2.length then
        let w1 := (pySplitWs d1).dedup
        let w2 := (pySplitWs d2).dedup
        if 0 < w1.length ∧ 0 < w2.length then
          let overlap := (w1.filter (fun w => w ∈ w2)).length
          let total := w1.length + (w2.filter (fun w => w ∉ w1)).length
          -- exact-arithmetic model of `overlap / total > 0.7`
          decide (7 * total < 10 * overlap)
        else false
      else false

/-- Inner scan of `_group_similar_entities`: collect the unprocessed
keys similar to `k`, in key order. -/
def groupScan (g : Graph) (allKeys : List String) (k : String)
    (processed : List String) : List String × List String :=
  allKeys.foldl
    (fun (st : List String × List String) o =>
      if o ≠ k ∧ o ∉ st.2 ∧ areEntitiesSimilar g k o then
        (st.1 ++ [o], st.2 ++ [o])
      else st)
    ([k], processed ++ [k])

/-- The outer loop of `_group_similar_entities`. -/
def groupSimilarGo (g : Graph) (allKeys : List String) :
    List String → List String → List (List String)
  | [], _ => []
  | k :: ks, processed =>
    if k ∈ processed then groupSimilarGo g allKeys ks processed
    else
      let res := groupScan g allKeys k processed
      (if 1 < res.1.length then [res.1] else []) ++
        groupSimilarGo g allKeys ks res.2

/-- `SchemaManager._group_similar_entities`. -/
def groupSimilarEntities (g : Graph) : List (List String) :=
  groupSimilarGo g (dictKeys g) (dictKeys g) []

/-- The canonical-selection score of `_select_primary_entity`.
`max(0, 50 - len)` is truncated `Nat` subtraction. -/
def entityScore (g : Graph) (k : String) : Nat :=
  let e := entGet g k
  (50 - k.length) +
  (if 20 < e.description.length then 20
   else if 10 < e.description.length then 10 else 0) +
  (if e.chinese_name ≠ "" then 15 else 0) +
  min (e.properties.length * 5) 25 +
  min (e.relations.length * 3) 15 +
  (if pyIsAlnum (pyReplace (pyReplace k "_" "") "-" "") then 10 else 0)

/-- `SchemaManager._select_primary_entity`: highest score wins, earlier
key wins ties (Python's stable descending sort). -/
def selectPrimaryEntity (g : Graph) : List String → String
  | [] => ""
  | k :: ks =>
    ks.foldl (fun best cur =>
      if entityScore g best < entityScore g cur then cur else best) k

/-- Back-fill one falsy-or-missing string field
(`if k not in existing or not existing[k]: existing[k] = v`). -/
def backfillStr (a b : Option String) : Option String :=
  match b with
  | none => a
  | some t =>
    match a with
    | none => some t
    | some s => if s = "" then some t else some s

/-- Back-fill a list-valued field (Python treats `[]` as falsy). -/
def backfillList {β : Type} (a b : List β) : List β :=
  if a.isEmpty then b else a

/-- Back-fill an optional list-valued field. -/
def backfillOptList {β : Type} (a b : Option (List β)) : Option (List β) :=
  match b with
  | none => a
  | some m =>
    match a with
    | none => some m
    | some l => if l.isEmpty then some m else some l

/-- Dict-on-dict property merge of `_merge_entity_data`: keep the
existing definition, completing its empty fields from the duplicate. -/
def backfillProp (ex nw : PropVal) : PropVal :=
  match ex, nw with
  | .pdict a, .pdict b =>
    .pdict
      { name := backfillStr a.name b.name,
        type := backfillStr a.type b.type,
        chinese_name := backfillStr a.chinese_name b.chinese_name,
        description := backfillStr a.description b.description,
        constraint := backfillStr a.constraint b.constraint,
        index := backfillStr a.index b.index,
        properties := backfillList a.properties b.properties }
  | _, _ => ex

/-- Dict-on-dict relation merge of `_merge_entity_data`. -/
def backfillRel (ex nw : RelDef) : RelDef :=
  match ex, nw with
  | .newFmt a, .newFmt b =>
    .newFmt
      { name := backfillStr a.name b.name,
        target := backfillStr a.target b.target,
        aliases := backfillOptList a.aliases b.aliases,
        constraint := backfillStr a.constraint b.constraint,
        description := backfillStr a.description b.description,
        chinese_name := backfillStr a.chinese_name b.chinese_name,
        properties := backfillList a.properties b.properties }
  | _, _ => ex

/-- `SchemaManager._merge_entity_data`: returns the property and
relation increments not already present on the primary entity. -/
def mergeEntityData (g : Graph) (primary : String) (dups : List String) :
    List (String × PropVal) × List (String × RelDef) :=
  let all := primary :: dups
  let merged := all.foldl
    (fun (acc : List (String × PropVal) × List (String × RelDef)) k =>
      let e := entGet g k
      let mp := e.properties.foldl
        (fun mp p =>
          match dictGet mp p.1 with
          | none => dictInsert mp p.1 p.2
          | some ex => dictInsert mp p.1 (backfillProp ex p.2))
        acc.1
      let mr := e.relations.foldl
        (fun mr q =>
          match dictGet mr q.1 with
          | none => dictInsert mr q.1 q.2
          | some ex => dictInsert mr q.1 (backfillRel ex q.2))
        acc.2
      (mp, mr))
    ([], [])
  let pe := entGet g primary
  (merged.1.filter (fun p => (dictGet pe.properties p.1).isNone),
   merged.2.filter (fun q => (dictGet pe.relations q.1).isNone))

/-- One duplicate group of the loop of
`merge_and_remove_duplicate_entities`. -/
def mergeStep (g : Graph) (grp : List String) : Graph :=
  if 1 < grp.length then
    let primary := selectPrimaryEntity g grp
    let dups := grp.filter (fun e => e ≠ primary)
    let inc := mergeEntityData g primary dups
    let g' :=
      if (dictGet g primary).isSome then
        dictModify g primary (fun e =>
          { e with
            properties := dictUpdate e.properties inc.1,
            relations := dictUpdate e.relations inc.2 })
      else g
    dups.foldl dictRemove g'
  else g

/-- `SchemaManager.merge_and_remove_duplicate_entities` (its effect on
the entity map). -/
def mergeAndRemoveDuplicateEntities (g : Graph) : Graph :=
  (groupSimilarEntities g).foldl mergeStep g

/-- One merge-and-validate pass, the pair the spec calls idempotent. -/
def mergeValidatePair (g : Graph) : Graph :=
  validateAndUpdateRelations (mergeAndRemoveDuplicateEntities g)

/-! ## SchemaManager._generate_entity_schema_string (tab-indented) -/

/-- Rendering of one property definition by the manager serializer.
The source indexes `prop_def['name']` / `prop_def['type']` directly
(a malformed definition would raise); missing fields render as `""`
here, a path no theorem relies on. -/
def mPropLines (d : PropFields) : List String :=
  ["\t\t" ++ d.name.getD "" ++ ": " ++ d.type.getD ""] ++
  (match d.constraint with
   | some c => if c ≠ "" then ["\t\t\tconstraint: " ++ c] else []
   | none => []) ++
  (match d.index with
   | some i => ["\t\t\tindex: " ++ i]
   | none => [])

/-- Rendering of one property entry (legacy string values would raise in
the source; they render as an empty definition here). -/
def mPropEntryLines (v : PropVal) : List String :=
  match v with
  | .pdict d => mPropLines d
  | .pstr _ => mPropLines {}

/-- Stand-in for Python's `f"{relation_def}"` dict repr used by the
old-format fallback of the manager serializer; no theorem inspects it. -/
def relDictRepr (d : RelData) : String :=
  "dict:" ++ d.name.getD "" ++ ":" ++ d.target.getD ""

/-- Rendering of one relation entry by the manager serializer. -/
def mRelLines (p : String × RelDef) : List String :=
  match p.2 with
  | .newFmt d =>
    if d.name.isSome && d.target.isSome then
      ["\t\t" ++ d.name.getD "" ++ ": " ++ d.target.getD ""] ++
      (match d.constraint with
       | some c => if c ≠ "" then ["\t\t\tconstraint: " ++ c] else []
       | none => [])
    else
      ["\t\t" ++ p.1 ++ ": " ++ relDictRepr d]
  | .oldFmt s => ["\t\t" ++ p.1 ++ ": " ++ s]

/-- `SchemaManager._generate_entity_schema_string`. -/
def genEntityStringM (e : Entity) : String :=
  let header := e.name ++ "(" ++ e.chinese_name ++ "): " ++ e.openspg_type
  if e.openspg_type = "ConceptType" then
    String.intercalate "\n" [header, "\thypernymPredicate: isA"]
  else
    let props := e.properties
    let propLines :=
      if props.isEmpty then []
      else
        ["\tproperties:"] ++
        (match dictGet props "desc" with
         | some v => mPropEntryLines v
         | none => []) ++
        (match dictGet props "name" with
         | some v => mPropEntryLines v
         | none => []) ++
        (props.foldl (fun acc p =>
          if p.1 ≠ "desc" ∧ p.1 ≠ "name" then acc ++ mPropEntryLines p.2
          else acc) [])
    let relLines :=
      if e.relations.isEmpty then []
      else
        ["\trelations:"] ++ e.relations.foldl (fun acc p => acc ++ mRelLines p) []
    String.intercalate "\n" ([header] ++ propLines ++ relLines)

/-! ## SchemaGenerator.generate_entity_schema_string (space-indented) -/

/-- Sub-property rendering of the generator serializer. -/
def gSubPropLines (p : String × SubPropFields) : List String :=
  ["                " ++ p.1 ++ "(" ++ p.2.chinese_name.getD p.1 ++ "): " ++
    p.2.type.getD ""] ++
  (match p.2.description with
   | some ds => if ds ≠ "" then ["                    desc: " ++ ds] else []
   | none => []) ++
  (match p.2.constraint with
   | some c => if c ≠ "" then ["                    constraint: " ++ c] else []
   | none => [])

/-- Property rendering of the generator serializer. -/
def gPropLines (p : String × PropFields) : List String :=
  let d := p.2
  let propName := d.name.getD (p.1 ++ "(" ++ d.chinese_name.getD p.1 ++ ")")
  ["        " ++ propName ++ ": " ++ d.type.getD ""] ++
  (match d.description with
   | some ds => if ds ≠ "" then ["            desc: " ++ ds] else []
   | none => []) ++
  (match d.constraint with
   | some c => if c ≠ "" then ["            constraint: " ++ c] else []
   | none => []) ++
  (if d.properties.isEmpty then []
   else ["            properties:"] ++
     d.properties.foldl (fun acc sp => acc ++ gSubPropLines sp) [])

/-- Property-entry rendering; legacy string values would raise in the
source and render as an empty definition here. -/
def gPropEntryLines (p : String × PropVal) : List String :=
  match p.2 with
  | .pdict d => gPropLines (p.1, d)
  | .pstr _ => gPropLines (p.1, {})

/-- Relation rendering of the generator serializer (old-format string
values would raise in the source; they render as a bare line here). -/
def gRelLines (p : String × RelDef) : List String :=
  match p.2 with
  | .newFmt d =>
    let relName := d.name.getD (p.1 ++ "(" ++ d.chinese_name.getD p.1 ++ ")")
    ["        " ++ relName ++ ": " ++ d.target.getD ""] ++
    (match d.description with
     | some ds => if ds ≠ "" then ["            desc: " ++ ds] else []
     | none => []) ++
    (if d.properties.isEmpty then []
     else ["            properties:"] ++
       d.properties.foldl (fun acc sp => acc ++ gSubPropLines sp) []) ++
    (match d.constraint with
     | some c => if c ≠ "" then ["            constraint: " ++ c] else []
     | none => [])
  | .oldFmt s => ["        " ++ p.1 ++ ": " ++ s]

/-- The `desc`/`name` placeholder injection of the generator
serializer. -/
def gStandardProps (props : List (String × PropVal)) :
    List (String × PropVal) :=
  let hasDesc := props.any (fun p =>
    strContains (pyLower p.1) "desc" || strContains (pyLower p.1) "description")
  let hasName := props.any (fun p =>
    strContains (pyLower p.1) "name" && !strContains (pyLower p.1) "chinese")
  (if !hasDesc then [("desc", stdDescProp)] else []) ++
  (if !hasName then [("name", stdNameProp)] else [])

/-- `SchemaGenerator.generate_entity_schema_string`.  Note: unlike the
manager serializer it has no `ConceptType` special case. -/
def genEntityStringG (e : Entity) : String :=
  let header := e.name ++ "(" ++ e.chinese_name ++ "): " ++ e.openspg_type
  let descLines := if e.description ≠ "" then ["    desc: " ++ e.description] else []
  let allProps := dictUpdate (gStandardProps e.properties) e.properties
  let propLines :=
    if allProps.isEmpty then []
    else ["    properties:"] ++
      allProps.foldl (fun acc p => acc ++ gPropEntryLines p) []
  let relLines :=
    if e.relations.isEmpty then []
    else ["    relations:"] ++
      e.relations.foldl (fun acc p => acc ++ gRelLines p) []
  String.intercalate "\n" ([header] ++ descLines ++ propLines ++ relLines)

/-! ## SchemaGenerator._standardize_entity and name helpers -/

/-- A raw candidate record from the extraction step, restricted to the
name-bearing fields.  Records carrying `properties`/`relations` take
branches that do not affect the accept/reject decision on names. -/
structure RawRecord where
  name : String := ""
  chinese_name : String := ""
  description : String := ""
  openspg_type : Option String := none
  typ : Option String := none
  category : Option String := none
  deriving DecidableEq, Repr

/-- The normalizer's output record. -/
structure StdEntity where
  name : String
  chinese_name : String
  english_name : String
  description : String
  openspg_type : String
  traditional_type : String
  category : String
  typ : String
  properties : List (String × PropVal) := []
  relations : List (String × RelDef) := []
  deriving DecidableEq, Repr

/-- The anchored regex `^([^()]+)\(([^()]+)\)$` of
`_standardize_entity`: a name of the exact shape `English(中文)` with
both pieces non-empty and parenthesis-free. -/
def parseCompound (s : String) : Option (String × String) :=
  let cs := s.toList
  let a := cs.takeWhile (fun c => c ≠ '(' ∧ c ≠ ')')
  match cs.drop a.length with
  | '(' :: rest =>
    let b := rest.takeWhile (fun c => c ≠ '(' ∧ c ≠ ')')
    match rest.drop b.length with
    | [')'] => if a ≠ [] ∧ b ≠ [] then some (String.mk a, String.mk b) else none
    | _ => none
  | _ => none

/-- `SchemaGenerator._validate_english_name`. -/
def validateEnglishName (name : String) : Bool :=
  match name.toList with
  | [] => false
  | c :: _ =>
    if ¬ c.isUpper then false
    else if ¬ pyIsAlnum (pyReplace (pyReplace name "_" "") "-" "") then false
    else if strContains name "_" || strContains name "-" ||
        name.toList.any Char.isWhitespace then false
    else true

/-- `SchemaGenerator._fix_english_name`. -/
def fixEnglishName (name : String) : String :=
  if name = "" then ""
  else
    let f0 := String.mk (name.toList.filter (fun c => c.isAlpha || c.isDigit))
    let f1 :=
      match f0.toList with
      | [] => f0
      | c :: cs => if c.isLower then String.mk (c.toUpper :: cs) else f0
    match f1.toList with
    | [] => if validateEnglishName f1 then f1 else ""
    | c :: _ =>
      if c.isDigit then "" else if validateEnglishName f1 then f1 else ""

/-- The name-extraction prefix of `_standardize_entity`: strip both
names, then, when the chinese name is missing and the name field has
the `English(中文)` shape, split it. -/
def extractNames (r : RawRecord) : String × String :=
  let en := pyStrip r.name
  let cn := pyStrip r.chinese_name
  if cn = "" ∧ strContains en "(" ∧ strContains en ")" then
    match parseCompound en with
    | some ab => (pyStrip ab.1, pyStrip ab.2)
    | none => (en, cn)
  else (en, cn)

/-- `SchemaGenerator._standardize_entity` on a record without
`properties`/`relations` keys.  Returning `none` models the
reject-and-skip path (the source returns `None`, never raises to its
caller). -/
def standardizeEntity (r : RawRecord) : Option StdEntity :=
  let names := extractNames r
  if names.1 = "" then none
  else
    let cn := if names.2 = "" then names.1 else names.2
    let fixed := fixEnglishName names.1
    some
      { name := fixed,
        chinese_name := cn,
        english_name := fixed,
        description := pyStrip r.description,
        openspg_type := r.openspg_type.getD "EntityType",
        traditional_type := r.typ.getD "实体",
        category := r.category.getD "其他",
        typ := r.typ.getD "实体" }

/-! ## SchemaGenerator._sort_entities_by_dependency -/

/-- `entity_map = {entity['name']: entity for ...}` (later duplicates
overwrite, keeping first position). -/
def buildEntityMap (es : List Entity) : Graph :=
  es.foldl (fun m e => dictInsert m e.name e) []

/-- The dependency set of one entity: keys of other mapped entities
appearing as a property's type or a relation's target.  Python stores a
set; insertion order stands in for its iteration order.  Legacy string
property/relation values would raise on `.get` in the source and are
skipped here. -/
def depsFor (em : Graph) (e : Entity) : List String :=
  let d1 := e.properties.foldl
    (fun acc p =>
      match p.2 with
      | .pdict pf =>
        let pt := pf.type.getD ""
        if (dictGet em pt).isSome ∧ pt ≠ e.name then listInsert acc pt else acc
      | .pstr _ => acc)
    []
  e.relations.foldl
    (fun acc q =>
      match q.2 with
      | .newFmt rd =>
        let tg := rd.target.getD ""
        if (dictGet em tg).isSome ∧ tg ≠ e.name then listInsert acc tg else acc
      | .oldFmt _ => acc)
    d1

/-- The dependency graph over all entities. -/
def buildDeps (es : List Entity) (em : Graph) : List (String × List String) :=
  es.foldl (fun dm e => dictInsert dm e.name (depsFor em e)) []

/-- Lookup in the dependency graph (`dependencies.get(x, set())`). -/
def depsOf (dm : List (String × List String)) (x : String) : List String :=
  (dictGet dm x).getD []

/-- DFS state: `visited`, the cycle-detecting `temp_visited` stack, and
the accumulated topological order (as entity keys). -/
structure DfsSt where
  visited : List String := []
  temp : List String := []
  order : List String := []
  deriving Repr

/-- The recursive `dfs` of `_sort_entities_by_dependency`, with a fuel
parameter for termination; reachable calls never exhaust the fuel
chosen below (the stack depth is bounded by the number of keys). -/
def dfs (em : Graph) (dm : List (String × List String)) :
    Nat → DfsSt → String → DfsSt
  | 0, st, _ => st
  | fuel + 1, st, x =>
    if x ∈ st.temp then st
    else if x ∈ st.visited then st
    else
      let st1 := { st with temp := st.temp ++ [x] }
      let st2 := (depsOf dm x).foldl
        (fun s d => if (dictGet em d).isSome then dfs em dm fuel s d else s)
        st1
      { visited := st2.visited ++ [x],
        temp := st2.temp.erase x,
        order := if (dictGet em x).isSome then st2.order ++ [x] else st2.order }

/-- The key order produced by running `dfs` from every root. -/
def sortOrder (es : List Entity) : List String :=
  let em := buildEntityMap es
  let dm := buildDeps es em
  let fuel := em.length + 2
  ((dictKeys em).foldl
    (fun st k => if k ∈ st.visited then st else dfs em dm fuel st k)
    {}).order

/-- `SchemaGenerator._sort_entities_by_dependency`. -/
def sortEntitiesByDependency (es : List Entity) : List Entity :=
  (sortOrder es).filterMap (fun k => dictGet (buildEntityMap es) k)

/-- `SchemaGenerator.generate_complete_schema`. -/
def generateCompleteSchema (es : List Entity) (ns : String) : String :=
  let blocks := (sortEntitiesByDependency es).map genEntityStringG
  String.intercalate "\n" (["namespace " ++ ns, ""] ++ List.intersperse "" blocks)

/-! ## Basic lemmas about the dict model -/

theorem mem_dictInsert {α : Type u} {l : List (String × α)} {k : String}
    {v : α} {p : String × α} (h : p ∈ dictInsert l k v) :
    p ∈ l ∨ p = (k, v) := by
  induction l with
  | nil => simpa [dictInsert] using h
  | cons q rest ih =>
    rcases q with ⟨qk, qv⟩
    simp only [dictInsert] at h
    by_cases hq : qk = k
    · simp [hq] at h
      rcases h with h | h
      · right; simp [h]
      · left; exact List.mem_cons_of_mem _ h
    · simp [hq] at h
      rcases h with h | h
      · left; simp [h]
      · rcases ih h with h' | h'
        · left; exact List.mem_cons_of_mem _ h'
        · right; exact h'

theorem dictKeys_dictInsert {α : Type u} (l : List (String × α)) (k : String)
    (v : α) :
    dictKeys (dictInsert l k v) =
      if k ∈ dictKeys l then dictKeys l else dictKeys l ++ [k] := by
  induction l with
  | nil => simp [dictInsert, dictKeys]
  | cons q rest ih =>
    rcases q with ⟨qk, qv⟩
    by_cases hq : qk = k
    · simp [dictInsert, hq, dictKeys]
    · have hne : ¬ k = qk := fun hk => hq hk.symm
      simp [dictInsert, hq, dictKeys, hne] at ih ⊢
      rw [ih]
      by_cases hk : k ∈ List.map Prod.fst rest <;> simp [hk, hne]

theorem mem_keys_dictInsert {α : Type u} {l : List (String × α)}
    {x k : String} {v : α} :
    x ∈ dictKeys (dictInsert l k v) ↔ x ∈ dictKeys l ∨ x = k := by
  rw [dictKeys_dictInsert]
  by_cases hk : k ∈ dictKeys l
  · simp [hk]
    intro hx
    rw [hx]
    exact hk
  · simp [hk]

theorem dictGet_mem {α : Type u} {l : List (String × α)} {k : String} {v : α}
    (h : dictGet l k = some v) : (k, v) ∈ l := by
  induction l with
  | nil => simp [dictGet] at h
  | cons q rest ih =>
    rcases q with ⟨qk, qv⟩
    by_cases hq : qk = k
    · simp [dictGet, hq] at h
      subst hq
      simp [h]
    · simp [dictGet, hq] at h
      exact List.mem_cons_of_mem _ (ih h)

theorem mem_keys_of_mem {α : Type u} {l : List (String × α)} {p : String × α}
    (h : p ∈ l) : p.1 ∈ dictKeys l := by
  simp only [dictKeys]
  exact List.mem_map.mpr ⟨p, h, rfl⟩

theorem dictGet_isSome_of_mem_keys {α : Type u} {l : List (String × α)}
    {x : String} (h : x ∈ dictKeys l) : (dictGet l x).isSome := by
  induction l with
  | nil => simp [dictKeys] at h
  | cons q rest ih =>
    rcases q with ⟨qk, qv⟩
    by_cases hq : qk = x
    · simp [dictGet, hq]
    · simp [dictKeys, hq, Ne.symm hq] at h
      simp [dictGet, hq]
      exact ih (by simpa [dictKeys] using h)

theorem mem_keys_of_dictGet_isSome {α : Type u} {l : List (String × α)}
    {x : String} (h : (dictGet l x).isSome) : x ∈ dictKeys l := by
  rcases Option.isSome_iff_exists.mp h with ⟨v, hv⟩
  exact mem_keys_of_mem (dictGet_mem hv)

theorem dictKeys_dictModify {α : Type u} (l : List (String × α)) (k : String)
    (f : α → α) : dictKeys (dictModify l k f) = dictKeys l := by
  induction l with
  | nil => rfl
  | cons q rest ih =>
    rcases q with ⟨qk, qv⟩
    by_cases hq : qk = k <;> simp [dictModify, dictKeys, hq] at ih ⊢ <;>
      simpa [dictModify, dictKeys] using ih

theorem mem_dictModify {α : Type u} {l : List (String × α)} {k : String}
    {f : α → α} {p : String × α} (h : p ∈ dictModify l k f) :
    (p ∈ l ∧ p.1 ≠ k) ∨ ∃ v, (k, v) ∈ l ∧ p = (k, f v) := by
  simp only [dictModify, List.mem_map] at h
  rcases h with ⟨q, hq, hpq⟩
  rcases q with ⟨qk, qv⟩
  by_cases hk : qk = k
  · right
    refine ⟨qv, ?_, ?_⟩
    · rw [← hk]; exact hq
    · simp [hk] at hpq; simp [← hpq]
  · left
    simp [hk] at hpq
    rw [← hpq]
    exact ⟨hq, hk⟩

theorem dictGet_dictModify_self {α : Type u} (l : List (String × α))
    (k : String) (f : α → α) :
    dictGet (dictModify l k f) k = (dictGet l k).map f := by
  induction l with
  | nil => simp [dictModify, dictGet]
  | cons q rest ih =>
    rcases q with ⟨qk, qv⟩
    simp only [dictModify, List.map_cons]
    by_cases hq : qk = k
    · subst hq
      rw [if_pos rfl]
      simp [dictGet, dictModify, ih]
    · rw [if_neg (by simpa using hq)]
      simp only [dictModify] at ih
      simp [dictGet, hq, ih]

theorem dictGet_dictModify_ne {α : Type u} (l : List (String × α))
    {k k' : String} (f : α → α) (h : k' ≠ k) :
    dictGet (dictModify l k f) k' = dictGet l k' := by
  induction l with
  | nil => simp [dictModify, dictGet]
  | cons q rest ih =>
    rcases q with ⟨qk, qv⟩
    simp only [dictModify, List.map_cons]
    by_cases hq : qk = k
    · subst hq
      rw [if_pos rfl]
      simp only [dictModify] at ih
      simp [dictGet, Ne.symm h, ih]
    · rw [if_neg (by simpa using hq)]
      simp only [dictModify] at ih
      by_cases hq' : qk = k'
      · simp [dictGet, hq']
      · simp [dictGet, hq', ih]

theorem keys_nodup_entry_unique {α : Type u} {l : List (String × α)}
    (hnd : (dictKeys l).Nodup) {p q : String × α} (hp : p ∈ l) (hq : q ∈ l)
    (hk : p.1 = q.1) : p = q := by
  induction l with
  | nil => simp at hp
  | cons a rest ih =>
    simp only [dictKeys, List.map_cons, List.nodup_cons] at hnd
    rcases List.mem_cons.mp hp with hp' | hp' <;>
      rcases List.mem_cons.mp hq with hq' | hq'
    · rw [hp', hq']
    · exfalso
      apply hnd.1
      rw [← hp', hk]
      exact List.mem_map.mpr ⟨q, hq', rfl⟩
    · exfalso
      apply hnd.1
      rw [← hq', ← hk]
      exact List.mem_map.mpr ⟨p, hp', rfl⟩
    · exact ih (by simpa [dictKeys] using hnd.2) hp' hq'

theorem dictGet_of_mem_nodup {α : Type u} {l : List (String × α)}
    (hnd : (dictKeys l).Nodup) {p : String × α} (hp : p ∈ l) :
    dictGet l p.1 = some p.2 := by
  rcases Option.isSome_iff_exists.mp
      (dictGet_isSome_of_mem_keys (mem_keys_of_mem hp)) with ⟨v, hv⟩
  have := keys_nodup_entry_unique hnd (dictGet_mem hv) hp rfl
  rw [hv]
  rw [← this]

theorem dictInsert_eq_append {α : Type u} {l : List (String × α)}
    {k : String} (v : α) (h : k ∉ dictKeys l) :
    dictInsert l k v = l ++ [(k, v)] := by
  induction l with
  | nil => simp [dictInsert]
  | cons q rest ih =>
    rcases q with ⟨qk, qv⟩
    simp only [dictKeys, List.map_cons, List.mem_cons] at h
    push_neg at h
    simp [dictInsert, Ne.symm h.1, ih (by simpa [dictKeys] using h.2)]

theorem keys_nodup_filter {α : Type u} {l : List (String × α)}
    (hnd : (dictKeys l).Nodup) (f : String × α → Bool) :
    (dictKeys (l.filter f)).Nodup :=
  ((List.filter_sublist l).map Prod.fst).nodup hnd

/-! ## Fold induction helpers -/

theorem foldl_induction {σ α : Type u} (f : σ → α → σ) (P : σ → Prop)
    (step : ∀ s a, P s → P (f s a)) :
    ∀ (l : List α) (s : σ), P s → P (l.foldl f s) := by
  intro l
  induction l with
  | nil => intro s h; exact h
  | cons a l ih => intro s h; exact ih (f s a) (step s a h)

theorem foldl_induction_mem {σ α : Type u} (l : List α) (f : σ → α → σ)
    (P : σ → Prop) (step : ∀ s a, a ∈ l → P s → P (f s a)) :
    ∀ (s : σ), P s → P (l.foldl f s) := by
  induction l with
  | nil => intro s h; exact h
  | cons a l ih =>
    intro s h
    exact ih (fun s b hb => step s b (List.mem_cons_of_mem a hb)) (f s a)
      (step s a (List.mem_cons_self a l) h)

theorem foldl_rest_induction {σ α : Type u} (f : σ → α → σ)
    (P : σ → List α → Prop)
    (step : ∀ s a rest, P s (a :: rest) → P (f s a) rest) :
    ∀ (l : List α) (s : σ), P s l → P (l.foldl f s) [] := by
  intro l
  induction l with
  | nil => intro s h; exact h
  | cons a l ih => intro s h; exact ih (f s a) (step s a l h)

/-! ## Invariants of validate_and_update_relations -/

/-- Representation invariant of the manager: every entity is stored
under its own `name`.  All mutating operations of the manager maintain
it (`add_or_update_entity` and `_create_missing_entity` store under
`entity_name` with `name = entity_name`; merging only deletes). -/
def WellKeyed (g : Graph) : Prop :=
  ∀ p ∈ g, p.2.name = p.1

instance : DecidablePred WellKeyed := fun g =>
  List.decidableBAll _ g

/-- The target stored by a relation value, when it is a dict with a
`target` key. -/
def relTarget : RelDef → Option String
  | .newFmt d => d.target
  | .oldFmt _ => none

/-- Referential integrity of one entity's relations with respect to a
key set. -/
def ValidRels (e : Entity) (ks : List String) : Prop :=
  ∀ q ∈ e.relations, ∃ t ∈ ks, relTarget q.2 = some t

instance (e : Entity) (ks : List String) : Decidable (ValidRels e ks) :=
  List.decidableBAll _ e.relations

/-- The values of the `chinese_to_english` index. -/
def cteVals (cte : List (String × String)) : List String :=
  cte.map (·.2)

theorem mem_cteVals_of_dictGet {cte : List (String × String)} {k v : String}
    (h : dictGet cte k = some v) : v ∈ cteVals cte := by
  simp only [cteVals, List.mem_map]
  exact ⟨(k, v), dictGet_mem h, rfl⟩

/-- Case analysis of one `processRel` step: either the item is skipped,
or exactly one entry is appended to `updated` and its group, with the
graph either untouched (resolved target) or extended by a stub. -/
theorem processRel_spec (cte : List (String × String)) (r : RState)
    (item : String × RelDef) :
    processRel cte r item = r ∨
    ∃ d' t, (d' : RelData).target = some t ∧
      (processRel cte r item).updated = dictInsert r.updated item.1 d' ∧
      (processRel cte r item).ttr = ttrAdd r.ttr t item.1 ∧
      (((processRel cte r item).entities = r.entities ∧
        (processRel cte r item).english = r.english ∧
        (t ∈ cteVals cte ∨ t ∈ r.english)) ∨
       (t ∉ r.english ∧
        (processRel cte r item).entities = dictInsert r.entities t (mkStub t) ∧
        (processRel cte r item).english = listInsert r.english t)) := by
  rcases item with ⟨rk, rd⟩
  cases rd with
  | newFmt d =>
    cases htd : d.target with
    | none => left; simp [processRel, htd]
    | some t =>
      by_cases hv : validTargetStr t
      · cases hct : dictGet cte t with
        | some et =>
          right
          refine ⟨{ d with target := some et }, et, rfl, ?_⟩
          simp [processRel, htd, hv, hct]
          exact Or.inl (Or.inl (mem_cteVals_of_dictGet hct))
        | none =>
          by_cases he : t ∈ r.english
          · right
            refine ⟨d, t, htd, ?_⟩
            simp [processRel, htd, hv, hct, he]
          · right
            refine ⟨d, t, htd, ?_⟩
            simp [processRel, htd, hv, hct, he]
      · left; simp [processRel, htd, hv]
  | oldFmt s =>
    by_cases hv : validTargetStr s
    · cases hct : dictGet cte s with
      | some et =>
        right
        refine ⟨{ name := some rk, target := some et }, et, rfl, ?_⟩
        simp [processRel, hv, hct]
        exact Or.inl (Or.inl (mem_cteVals_of_dictGet hct))
      | none =>
        by_cases he : s ∈ r.english
        · right
          refine ⟨{ name := some rk, target := some s }, s, rfl, ?_⟩
          simp [processRel, hv, hct, he]
        · right
          refine ⟨{ name := some rk, target := some s }, s, rfl, ?_⟩
          simp [processRel, hv, hct, he]
    · left; simp [processRel, hv]

theorem mem_listInsert_self (l : List String) (x : String) :
    x ∈ listInsert l x := by
  by_cases h : x ∈ l <;> simp [listInsert, h]

theorem mem_listInsert_of_mem {l : List String} {y : String} (x : String)
    (h : y ∈ l) : y ∈ listInsert l x := by
  by_cases hx : x ∈ l <;> simp [listInsert, hx, h]

theorem mem_of_mem_listInsert {l : List String} {x y : String}
    (h : y ∈ listInsert l x) : y ∈ l ∨ y = x := by
  by_cases hx : x ∈ l <;> simp [listInsert, hx] at h
  · exact Or.inl h
  · exact h

/-- Collapsing one duplicate-target group only rewrites `aliases` and
drops entries: every surviving entry keeps the key and target of an
input entry. -/
theorem mergeGroup_descend {u : List (String × RelData)}
    {grp : String × List String} {p : String × RelData}
    (h : p ∈ mergeGroup u grp) :
    ∃ q ∈ u, q.1 = p.1 ∧ q.2.target = p.2.target := by
  rcases grp with ⟨t, ks⟩
  match ks with
  | [] => exact ⟨p, h, rfl, rfl⟩
  | [k] => exact ⟨p, h, rfl, rfl⟩
  | primary :: k2 :: rest =>
    simp only [mergeGroup, List.mem_filter] at h
    rcases h with ⟨hmem, _⟩
    rcases mem_dictModify hmem with ⟨hq, _⟩ | ⟨v, hv, hpv⟩
    · exact ⟨p, hq, rfl, rfl⟩
    · refine ⟨(primary, v), hv, ?_⟩
      rw [hpv]
      exact ⟨rfl, rfl⟩

/-- Every entry of the merged relation dict descends from an entry of
`updated` with the same key and target. -/
theorem mergeDupRels_descend {ttr : List (String × List String)}
    {u : List (String × RelData)} {p : String × RelData}
    (h : p ∈ mergeDupRels ttr u) :
    ∃ q ∈ u, q.1 = p.1 ∧ q.2.target = p.2.target := by
  induction ttr generalizing u with
  | nil => exact ⟨p, h, rfl, rfl⟩
  | cons grp ttr ih =>
    have h' : p ∈ mergeDupRels ttr (mergeGroup u grp) := h
    rcases ih h' with ⟨q, hq, hk, ht⟩
    rcases mergeGroup_descend hq with ⟨q', hq', hk', ht'⟩
    exact ⟨q', hq', hk'.trans hk, ht'.trans ht⟩

/-! ## C1: referential integrity after validate_and_update_relations -/

/-- Invariant threaded through one entity's relation loop, relative to
the snapshot graph `g0` the pass started from. -/
def RInv (cte : List (String × String)) (g0 : Graph) (r : RState) : Prop :=
  (∀ v ∈ cteVals cte, v ∈ dictKeys r.entities) ∧
  (∀ x ∈ r.english, x ∈ dictKeys r.entities) ∧
  (∀ p ∈ r.updated, ∃ t, p.2.target = some t ∧ t ∈ dictKeys r.entities) ∧
  (∀ x ∈ dictKeys g0, x ∈ dictKeys r.entities) ∧
  (∀ p ∈ r.entities, p ∈ g0 ∨ p.2.relations = [])

theorem RInv_step {cte : List (String × String)} {g0 : Graph} {r : RState}
    (item : String × RelDef) (h : RInv cte g0 r) :
    RInv cte g0 (processRel cte r item) := by
  rcases h with ⟨h1, h2, h3, h4, h5⟩
  rcases processRel_spec cte r item with heq | ⟨d', t, htd, hupd, _, hcase⟩
  · rw [heq]; exact ⟨h1, h2, h3, h4, h5⟩
  · rcases hcase with ⟨hent, heng, hres⟩ | ⟨_, hent, heng⟩
    · refine ⟨?_, ?_, ?_, ?_, ?_⟩
      · intro v hv; rw [hent]; exact h1 v hv
      · intro x hx; rw [hent]; exact h2 x (heng ▸ hx)
      · intro p hp
        rw [hupd] at hp
        rcases mem_dictInsert hp with hp' | hp'
        · rcases h3 p hp' with ⟨t', ht', hk⟩
          exact ⟨t', ht', by rw [hent]; exact hk⟩
        · refine ⟨t, by rw [hp']; exact htd, ?_⟩
          rw [hent]
          rcases hres with hres | hres
          · exact h1 t hres
          · exact h2 t hres
      · intro x hx; rw [hent]; exact h4 x hx
      · intro p hp; rw [hent] at hp; exact h5 p hp
    · refine ⟨?_, ?_, ?_, ?_, ?_⟩
      · intro v hv
        rw [hent]
        exact mem_keys_dictInsert.mpr (Or.inl (h1 v hv))
      · intro x hx
        rw [hent]
        rw [heng] at hx
        rcases mem_of_mem_listInsert hx with hx' | hx'
        · exact mem_keys_dictInsert.mpr (Or.inl (h2 x hx'))
        · exact mem_keys_dictInsert.mpr (Or.inr hx')
      · intro p hp
        rw [hupd] at hp
        rw [hent]
        rcases mem_dictInsert hp with hp' | hp'
        · rcases h3 p hp' with ⟨t', ht', hk⟩
          exact ⟨t', ht', mem_keys_dictInsert.mpr (Or.inl hk)⟩
        · exact ⟨t, by rw [hp']; exact htd,
            mem_keys_dictInsert.mpr (Or.inr rfl)⟩
      · intro x hx
        rw [hent]
        exact mem_keys_dictInsert.mpr (Or.inl (h4 x hx))
      · intro p hp
        rw [hent] at hp
        rcases mem_dictInsert hp with hp' | hp'
        · exact h5 p hp'
        · right
          rw [hp']
          rfl

/-- Invariant of the outer entity loop: name indices point into the
live key set, and every stored entity either already has valid
relations or is an original entity still waiting in the unprocessed
remainder of the snapshot. -/
def QInv (cte : List (String × String)) (vst : VState)
    (rest : List (String × Entity)) : Prop :=
  (∀ v ∈ cteVals cte, v ∈ dictKeys vst.entities) ∧
  (∀ x ∈ vst.english, x ∈ dictKeys vst.entities) ∧
  (∀ p ∈ vst.entities,
    ValidRels p.2 (dictKeys vst.entities) ∨
    ∃ e₀, (p.1, e₀) ∈ rest ∧ p.2.relations = e₀.relations)

theorem QInv_step {cte : List (String × String)} {vst : VState}
    (item : String × Entity) (rest : List (String × Entity))
    (h : QInv cte vst (item :: rest)) :
    QInv cte (vaurStep cte vst item) rest := by
  rcases h with ⟨h1, h2, h3⟩
  rcases item with ⟨k, e⟩
  by_cases hrels : e.relations.isEmpty
  · have hstep : vaurStep cte vst (k, e) = vst := by
      simp [vaurStep, hrels]
    rw [hstep]
    refine ⟨h1, h2, ?_⟩
    intro p hp
    rcases h3 p hp with hv | ⟨e₀, he₀, hr⟩
    · exact Or.inl hv
    · rcases List.mem_cons.mp he₀ with he' | he'
      · left
        intro q hq
        rw [hr, (Prod.mk.injEq _ _ _ _ |>.mp he').2] at hq
        rw [List.isEmpty_iff] at hrels
        rw [hrels] at hq
        simp at hq
      · exact Or.inr ⟨e₀, he', hr⟩
  · -- the processed branch
    set r := vaurInner cte vst e with hr
    have hrinv : RInv cte vst.entities r := by
      rw [hr]
      apply foldl_induction (processRel cte) (RInv cte vst.entities)
        (fun s a hs => RInv_step a hs)
      exact ⟨h1, h2, by intro p hp; simp at hp, fun x hx => hx,
        fun p hp => Or.inl hp⟩
    rcases hrinv with ⟨r1, r2, r3, r4, r5⟩
    -- every entry of the outgoing relation dict carries a live target
    have hvalid : ∀ q ∈ vaurRelsOut r, ∃ t ∈ dictKeys r.entities,
        relTarget q.2 = some t := by
      intro q hq
      rcases List.mem_map.mp hq with ⟨p, hp, hpq⟩
      rcases mergeDupRels_descend hp with ⟨q', hq', _, ht'⟩
      rcases r3 q' hq' with ⟨t, htq, hk⟩
      refine ⟨t, hk, ?_⟩
      rw [← hpq]
      simpa [relTarget, ← ht'] using htq
    -- classification of the stored entities before the write-back
    have hentOrigin : ∀ p ∈ r.entities,
        ValidRels p.2 (dictKeys r.entities) ∨
        (p.1 = k ∧ p.2.relations = e.relations) ∨
        ∃ e₀, (p.1, e₀) ∈ rest ∧ p.2.relations = e₀.relations := by
      intro p hp
      rcases r5 p hp with hpg | hpe
      · rcases h3 p hpg with hv | ⟨e₀, he₀, hrel⟩
        · left
          intro q hq
          rcases hv q hq with ⟨t, ht, hrt⟩
          exact ⟨t, r4 t ht, hrt⟩
        · rcases List.mem_cons.mp he₀ with he' | he'
          · right; left
            have hk1 : p.1 = k := (Prod.mk.injEq _ _ _ _ |>.mp he').1
            have hk2 : e₀ = e := (Prod.mk.injEq _ _ _ _ |>.mp he').2
            exact ⟨hk1, by rw [hrel, hk2]⟩
          · right; right; exact ⟨e₀, he', hrel⟩
      · left
        intro q hq
        rw [hpe] at hq
        simp at hq
    by_cases hcond : vaurCond r e
    · have hstep : vaurStep cte vst (k, e) =
          { entities := dictModify r.entities k
              (fun x => { x with relations := vaurRelsOut r }),
            english := r.english } := by
        simp [vaurStep, hrels, ← hr, hcond]
      rw [hstep]
      have hkeys : dictKeys (dictModify r.entities k
          (fun x => { x with relations := vaurRelsOut r })) =
          dictKeys r.entities := dictKeys_dictModify _ _ _
      refine ⟨?_, ?_, ?_⟩
      · dsimp only; intro v hv; rw [hkeys]; exact r1 v hv
      · dsimp only; intro x hx; rw [hkeys]; exact r2 x hx
      · dsimp only
        intro p hp
        rw [hkeys]
        rcases mem_dictModify hp with ⟨hp', hpk⟩ | ⟨v, hv, hpv⟩
        · rcases hentOrigin p hp' with hvr | ⟨hk1, _⟩ | ⟨e₀, he₀, hrel⟩
          · exact Or.inl hvr
          · exact absurd hk1 hpk
          · exact Or.inr ⟨e₀, he₀, hrel⟩
        · left
          intro q hq
          rw [hpv] at hq
          exact hvalid q hq
    · have hstep : vaurStep cte vst (k, e) =
          { entities := r.entities, english := r.english } := by
        simp [vaurStep, hrels, ← hr, hcond]
      have hrOut : vaurRelsOut r = e.relations := by
        simp [vaurCond] at hcond
        exact hcond.2
      rw [hstep]
      refine ⟨r1, r2, ?_⟩
      intro p hp
      rcases hentOrigin p hp with hvr | ⟨_, hrel⟩ | ⟨e₀, he₀, hrel⟩
      · exact Or.inl hvr
      · left
        intro q hq
        rw [hrel, ← hrOut] at hq
        exact hvalid q hq
      · exact Or.inr ⟨e₀, he₀, hrel⟩

theorem mem_cteVals_dictInsert {l : List (String × String)} {k w v : String}
    (h : v ∈ cteVals (dictInsert l k w)) : v ∈ cteVals l ∨ v = w := by
  simp only [cteVals, List.mem_map] at h
  rcases h with ⟨q, hq, hv⟩
  rcases mem_dictInsert hq with h' | h'
  · left
    simp only [cteVals, List.mem_map]
    exact ⟨q, h', hv⟩
  · right
    rw [h'] at hv
    exact hv.symm

theorem buildCte_val_is_name (g : Graph) :
    ∀ v ∈ cteVals (buildCte g), ∃ p ∈ g, p.2.name = v := by
  unfold buildCte
  apply foldl_induction_mem g _
    (fun acc => ∀ v ∈ cteVals acc, ∃ p ∈ g, p.2.name = v)
  · intro acc a ha hacc v hv
    unfold cteStep at hv
    by_cases hc : a.2.chinese_name ≠ "" ∧ a.2.name ≠ ""
    · rw [if_pos hc] at hv
      rcases mem_cteVals_dictInsert hv with h' | h'
      · exact hacc v h'
      · exact ⟨a, ha, h'.symm⟩
    · rw [if_neg hc] at hv
      exact hacc v hv
  · intro v hv
    simp [cteVals] at hv

theorem buildEnglish_is_name (g : Graph) :
    ∀ x ∈ buildEnglish g, ∃ p ∈ g, p.2.name = x := by
  unfold buildEnglish
  apply foldl_induction_mem g _
    (fun acc => ∀ x ∈ acc, ∃ p ∈ g, p.2.name = x)
  · intro acc a ha hacc x hx
    unfold englishStep at hx
    by_cases hc : a.2.chinese_name ≠ "" ∧ a.2.name ≠ ""
    · rw [if_pos hc] at hx
      rcases mem_of_mem_listInsert hx with h' | h'
      · exact hacc x h'
      · exact ⟨a, ha, h'.symm⟩
    · rw [if_neg hc] at hx
      exact hacc x hx
  · intro x hx
    simp at hx

/-- Core invariant theorem behind claim C1: on a well-keyed graph,
after the validation pass every stored relation is a dict whose target
is a key of the resulting entity map. -/
theorem vaur_referential_integrity (g : Graph) (hwk : WellKeyed g) :
    ∀ p ∈ validateAndUpdateRelations g,
      ValidRels p.2 (dictKeys (validateAndUpdateRelations g)) := by
  have hfinal : QInv (buildCte g)
      (g.foldl (vaurStep (buildCte g))
        { entities := g, english := buildEnglish g }) [] := by
    apply foldl_rest_induction (vaurStep (buildCte g)) (QInv (buildCte g))
      (fun s a rest h => QInv_step a rest h)
    refine ⟨?_, ?_, ?_⟩
    · intro v hv
      rcases buildCte_val_is_name g v hv with ⟨p, hp, hname⟩
      rw [← hname, hwk p hp]
      exact mem_keys_of_mem hp
    · intro x hx
      rcases buildEnglish_is_name g x hx with ⟨p, hp, hname⟩
      rw [← hname, hwk p hp]
      exact mem_keys_of_mem hp
    · intro p hp
      right
      exact ⟨p.2, by simpa using hp, rfl⟩
  intro p hp
  rcases hfinal with ⟨_, _, h3⟩
  rcases h3 p hp with hv | ⟨e₀, he₀, _⟩
  · exact hv
  · simp at he₀

/-- C1: after a `validate_and_update_relations` pass completes, for
every entity E in the entity map and every relation R stored on E, R's
target string is the key of an entity present in the entity map (no
relation target dangles).  The hypothesis is the manager's
representation invariant that each entity is stored under its own
`name`, which every constructor of the map maintains. -/
theorem claim_C1 (g : Graph) (hwk : WellKeyed g) :
    ∀ p ∈ validateAndUpdateRelations g,
      ValidRels p.2 (dictKeys (validateAndUpdateRelations g)) :=
  vaur_referential_integrity g hwk

/-- Concrete graph used by the C1 witness: one entity with an
old-format relation to a missing target. -/
def c1Graph : Graph :=
  [("A", { name := "A", chinese_name := "甲",
           relations := [("r", RelDef.oldFmt "X")] })]

/-- Witness for C1 at a concrete graph: the pass creates the stub for
`X` and the result satisfies referential integrity. -/
theorem claim_C1_witness :
    WellKeyed c1Graph ∧
    ∀ p ∈ validateAndUpdateRelations c1Graph,
      ValidRels p.2 (dictKeys (validateAndUpdateRelations c1Graph)) :=
  ⟨by decide, claim_C1 _ (by decide)⟩

theorem dictGet_dictInsert_self {α : Type u} (l : List (String × α))
    (k : String) (v : α) : dictGet (dictInsert l k v) k = some v := by
  induction l with
  | nil => simp [dictInsert, dictGet]
  | cons q rest ih =>
    rcases q with ⟨qk, qv⟩
    by_cases hq : qk = k
    · simp [dictInsert, hq, dictGet]
    · simp [dictInsert, hq, dictGet, ih]

theorem dictGet_dictInsert_ne {α : Type u} (l : List (String × α))
    {k k' : String} (v : α) (h : k' ≠ k) :
    dictGet (dictInsert l k v) k' = dictGet l k' := by
  induction l with
  | nil => simp [dictInsert, dictGet, Ne.symm h]
  | cons q rest ih =>
    rcases q with ⟨qk, qv⟩
    by_cases hq : qk = k
    · subst hq
      simp [dictInsert, dictGet, Ne.symm h]
    · by_cases hq' : qk = k'
      · simp [dictInsert, hq, dictGet, hq', h]
      · simp [dictInsert, hq, dictGet, hq', ih]

/-! ## C10: add_or_update_entity property replacement versus merge -/

/-- C10: updating an existing entity with a non-empty `properties`
argument in which some value is a dict containing a `name` field
replaces the stored property map wholesale (keys absent from the
incoming map are gone); otherwise the incoming properties are
standardized and merged into the existing map. -/
theorem claim_C10 (g : Graph) (k : String) (old : Entity)
    (descr : String) (props : List (String × PropVal)) (cn : String)
    (rels : List (String × RelDef)) (ot et : String)
    (hold : dictGet g k = some old) :
    ∃ e', dictGet (addOrUpdateEntity g k descr props cn rels ot et) k =
        some e' ∧
      (propsAreComplete props = true →
        e'.properties = props ∧
        ∀ pk, dictGet props pk = none → dictGet e'.properties pk = none) ∧
      (propsAreComplete props = false →
        e'.properties =
          dictUpdate old.properties (buildStandardProperties props)) := by
  simp only [addOrUpdateEntity, hold]
  refine ⟨_, dictGet_dictInsert_self g k _, ?_, ?_⟩
  · intro hc
    refine ⟨by simp [hc], ?_⟩
    intro pk hpk
    simpa [hc] using hpk
  · intro hc
    simp [hc]

/-- Data for the C10 witness. -/
def c10Old : Entity := { name := "E", properties := [("p", PropVal.pstr "x")] }

/-- Graph for the C10 witness. -/
def c10Graph : Graph := [("E", c10Old)]

/-- Incoming complete property definitions for the C10 witness. -/
def c10Props : List (String × PropVal) :=
  [("q", PropVal.pdict { name := some "q(名)" })]

/-- Witness for C10 at concrete inputs. -/
theorem claim_C10_witness :
    dictGet c10Graph "E" = some c10Old ∧
    ∃ e', dictGet (addOrUpdateEntity c10Graph "E" "d" c10Props "" [] "" "")
        "E" = some e' ∧
      (propsAreComplete c10Props = true →
        e'.properties = c10Props ∧
        ∀ pk, dictGet c10Props pk = none →
          dictGet e'.properties pk = none) ∧
      (propsAreComplete c10Props = false →
        e'.properties =
          dictUpdate c10Old.properties (buildStandardProperties c10Props)) :=
  ⟨by decide, claim_C10 c10Graph "E" c10Old "d" c10Props "" [] "" ""
    (by decide)⟩

/-! ## C6: rejection of records without usable names -/

set_option maxRecDepth 8000 in
/-- Counterexample to C6 as stated: a record that supplies a display
name (`chinese_name`) but no english name is still rejected by
`_standardize_entity`, although the claim says a record supplying at
least one of the two names is not rejected. -/
theorem claim_C6_counterexample :
    ({ name := "", chinese_name := "隧道" } : RawRecord).chinese_name ≠ "" ∧
    standardizeEntity { name := "", chinese_name := "隧道" } = none := by
  decide

/-- C6 (amended): the normalizer rejects a record for missing names
exactly when its english name is empty after trimming and after the
`English(中文)` compound extraction; a display name alone does not
prevent rejection, and rejection is the `None` return consumed by the
caller's skip path, not an exception. -/
theorem claim_C6 (r : RawRecord) :
    standardizeEntity r = none ↔ (extractNames r).1 = "" := by
  unfold standardizeEntity
  by_cases h : (extractNames r).1 = "" <;> simp [h]

/-! ## C8: serialized form of Concept-kind entities -/

/-- Concept-kind entity exercising both serializers. -/
def c8Concept : Entity :=
  { name := "Proc", chinese_name := "流程", openspg_type := "ConceptType" }

set_option maxRecDepth 8000 in
/-- Counterexample to C8 as stated: the generator-side serializer
`SchemaGenerator.generate_entity_schema_string` has no `ConceptType`
case, so a Concept entity's block gets a properties section and no
`hypernymPredicate` marker. -/
theorem claim_C8_counterexample :
    strContains (genEntityStringG c8Concept) "properties:" = true ∧
    strContains (genEntityStringG c8Concept) "hypernymPredicate" = false ∧
    genEntityStringG c8Concept ≠
      c8Concept.name ++ "(" ++ c8Concept.chinese_name ++
        "): ConceptType\n\thypernymPredicate: isA" := by
  decide

/-- C8 (amended): the manager-side serializer
`SchemaManager._generate_entity_schema_string` renders every
`ConceptType` entity as exactly the header line plus the fixed
`hypernymPredicate: isA` marker line, with no properties or relations
section, regardless of the entity's stored properties and relations. -/
theorem claim_C8 (e : Entity) (h : e.openspg_type = "ConceptType") :
    genEntityStringM e =
      e.name ++ "(" ++ e.chinese_name ++
        "): ConceptType\n\thypernymPredicate: isA" := by
  simp only [genEntityStringM, h, String.intercalate, String.intercalate.go,
    String.append_assoc]
  rfl

/-- Witness for C8 at a concrete Concept entity. -/
theorem claim_C8_witness :
    genEntityStringM c8Concept =
      c8Concept.name ++ "(" ++ c8Concept.chinese_name ++
        "): ConceptType\n\thypernymPredicate: isA" :=
  claim_C8 c8Concept (by decide)

/-! ## C2, C3, C4: counterexamples -/

/-- Three entities where similarity is not transitive: `Alpha ~ Beta`
(shared chinese name), `Beta ~ BetaMax` (substring), but not
`Alpha ~ BetaMax`. -/
def c2Graph : Graph :=
  [("Alpha", { name := "Alpha", chinese_name := "X" }),
   ("Beta", { name := "Beta", chinese_name := "X" }),
   ("BetaMax", { name := "BetaMax", chinese_name := "Y" })]

set_option maxRecDepth 8000 in
/-- Counterexample to C2: the first merge-and-validate run keeps
`BetaMax` (it is only grouped with the already-processed `Beta` on the
next run), the second run removes it — the pair is not idempotent. -/
theorem claim_C2_counterexample :
    "BetaMax" ∈ dictKeys (mergeValidatePair c2Graph) ∧
    "BetaMax" ∉ dictKeys (mergeValidatePair (mergeValidatePair c2Graph)) := by
  decide

/-- Graph for C3: `Pump` and `Pumps` are duplicates (`Pump` survives the
merge), and `Road` has a relation targeting the loser key `Pumps`. -/
def c3Graph : Graph :=
  [("Pump", { name := "Pump", chinese_name := "泵" }),
   ("Pumps", { name := "Pumps", chinese_name := "泵" }),
   ("Road",
     { name := "Road", chinese_name := "路",
       relations :=
         [("r", RelDef.newFmt { name := some "r(通)",
                                target := some "Pumps" })] })]

set_option maxRecDepth 8000 in
/-- Counterexample to C3: after the merge removes loser `Pumps` in
favor of survivor `Pump`, the next validate pass does not repoint
`Road`'s relation to `Pump`; it recreates `Pumps` as an auto-created
stub and leaves the target unchanged. -/
theorem claim_C3_counterexample :
    "Pumps" ∉ dictKeys (mergeAndRemoveDuplicateEntities c3Graph) ∧
    "Pump" ∈ dictKeys (mergeAndRemoveDuplicateEntities c3Graph) ∧
    dictGet (entGet (mergeValidatePair c3Graph) "Road").relations "r" =
      some (RelDef.newFmt { name := some "r(通)", target := some "Pumps" }) ∧
    (entGet (mergeValidatePair c3Graph) "Pumps").auto_created = true ∧
    ("Pumps" : String) ≠ "Pump" := by
  decide

/-- Graph for C4: one relation whose target is whitespace only. -/
def c4Graph : Graph :=
  [("A", { name := "A", chinese_name := "甲",
           relations := [("r", RelDef.oldFmt " ")] })]

set_option maxRecDepth 8000 in
/-- Counterexample to C4 as stated: a relation entry whose target is a
blank string is silently dropped by the pass — the edge is neither kept
nor recorded as an alias, and no stub is created for it. -/
theorem claim_C4_counterexample :
    (entGet c4Graph "A").relations = [("r", RelDef.oldFmt " ")] ∧
    (entGet (validateAndUpdateRelations c4Graph) "A").relations = [] ∧
    dictKeys (validateAndUpdateRelations c4Graph) = ["A"] := by
  decide

/-! ## Pure view of the relation loop

The `updated_relations` / `target_to_relations` accumulators of one
entity's relation loop do not depend on the threaded entity map or
english-name set: the member and stub branches install the same entry.
This lets the outgoing relation dict of an entity be computed from the
`chinese_to_english` index and the entity's relations alone. -/

/-- The `(updated, ttr)` effect of one relation item. -/
def pureStep (cte : List (String × String))
    (ut : List (String × RelData) × List (String × List String))
    (item : String × RelDef) :
    List (String × RelData) × List (String × List String) :=
  match item.2 with
  | .newFmt d =>
    match d.target with
    | none => ut
    | some t =>
      if ¬ validTargetStr t then ut
      else
        match dictGet cte t with
        | some et =>
          (dictInsert ut.1 item.1 { d with target := some et },
           ttrAdd ut.2 et item.1)
        | none => (dictInsert ut.1 item.1 d, ttrAdd ut.2 t item.1)
  | .oldFmt s =>
    if ¬ validTargetStr s then ut
    else
      match dictGet cte s with
      | some et =>
        (dictInsert ut.1 item.1 { name := some item.1, target := some et },
         ttrAdd ut.2 et item.1)
      | none =>
        (dictInsert ut.1 item.1 { name := some item.1, target := some s },
         ttrAdd ut.2 s item.1)

theorem processRel_proj (cte : List (String × String)) (r : RState)
    (item : String × RelDef) :
    (processRel cte r item).updated = (pureStep cte (r.updated, r.ttr) item).1 ∧
    (processRel cte r item).ttr = (pureStep cte (r.updated, r.ttr) item).2 := by
  rcases item with ⟨rk, rd⟩
  cases rd with
  | newFmt d =>
    cases htd : d.target with
    | none => simp [processRel, pureStep, htd]
    | some t =>
      by_cases hv : validTargetStr t
      · cases hct : dictGet cte t with
        | some et => simp [processRel, pureStep, htd, hv, hct]
        | none =>
          by_cases he : t ∈ r.english <;>
            simp [processRel, pureStep, htd, hv, hct, he]
      · simp [processRel, pureStep, htd, hv]
  | oldFmt s =>
    by_cases hv : validTargetStr s
    · cases hct : dictGet cte s with
      | some et => simp [processRel, pureStep, hv, hct]
      | none =>
        by_cases he : s ∈ r.english <;>
          simp [processRel, pureStep, hv, hct, he]
    · simp [processRel, pureStep, hv]

theorem foldl_processRel_proj (cte : List (String × String)) :
    ∀ (rels : List (String × RelDef)) (r : RState),
      ((rels.foldl (processRel cte) r).updated,
       (rels.foldl (processRel cte) r).ttr) =
        rels.foldl (pureStep cte) (r.updated, r.ttr) := by
  intro rels
  induction rels with
  | nil => intro r; rfl
  | cons a rels ih =>
    intro r
    have hp := processRel_proj cte r a
    simp only [List.foldl_cons]
    rw [ih (processRel cte r a), hp.1, hp.2]

/-- The outgoing relation dict of one entity, as a pure function of the
name index and the entity's stored relations. -/
def vaurEntityRels (cte : List (String × String))
    (rels : List (String × RelDef)) : List (String × RelDef) :=
  let ut := rels.foldl (pureStep cte) ([], [])
  (mergeDupRels ut.2 ut.1).map (fun p => (p.1, RelDef.newFmt p.2))

theorem vaurRelsOut_inner (cte : List (String × String)) (st : VState)
    (e : Entity) :
    vaurRelsOut (vaurInner cte st e) = vaurEntityRels cte e.relations := by
  unfold vaurRelsOut vaurEntityRels vaurInner
  have h := foldl_processRel_proj cte e.relations
    { updated := [], ttr := [], entityUpdated := false,
      entities := st.entities, english := st.english }
  have h1 := congrArg Prod.fst h
  have h2 := congrArg Prod.snd h
  simp only at h1 h2
  rw [h1, h2]

/-! ## Final value of one entity after the pass -/

/-- All entities carry a non-empty name and display name (true of every
entity the manager itself constructs). -/
def AllNamed (g : Graph) : Prop :=
  ∀ p ∈ g, p.2.chinese_name ≠ "" ∧ p.2.name ≠ ""

instance : DecidablePred AllNamed := fun g => List.decidableBAll _ g

theorem processRel_english_mono (cte : List (String × String)) (r : RState)
    (item : String × RelDef) {x : String} (hx : x ∈ r.english) :
    x ∈ (processRel cte r item).english := by
  rcases processRel_spec cte r item with heq | ⟨d', t, _, _, _, hcase⟩
  · rw [heq]; exact hx
  · rcases hcase with ⟨_, heng, _⟩ | ⟨_, _, heng⟩
    · rw [heng]; exact hx
    · rw [heng]; exact mem_listInsert_of_mem t hx

theorem processRel_get_preserved (cte : List (String × String)) (r : RState)
    (item : String × RelDef) {k : String} (hk : k ∈ r.english) :
    dictGet (processRel cte r item).entities k = dictGet r.entities k := by
  rcases processRel_spec cte r item with heq | ⟨d', t, _, _, _, hcase⟩
  · rw [heq]
  · rcases hcase with ⟨hent, _, _⟩ | ⟨hne, hent, _⟩
    · rw [hent]
    · rw [hent]
      exact dictGet_dictInsert_ne r.entities _ (fun h => hne (h ▸ hk))

theorem vaurInner_get_preserved (cte : List (String × String)) (st : VState)
    (e : Entity) {k : String} (hk : k ∈ st.english) :
    dictGet (vaurInner cte st e).entities k = dictGet st.entities k ∧
    k ∈ (vaurInner cte st e).english := by
  unfold vaurInner
  apply foldl_induction (processRel cte)
    (fun r => dictGet r.entities k = dictGet st.entities k ∧ k ∈ r.english)
  · intro r a hr
    exact ⟨(processRel_get_preserved cte r a hr.2).trans hr.1,
      processRel_english_mono cte r a hr.2⟩
  · exact ⟨rfl, hk⟩

/-- Effect of one `vaurStep` on the stored value of an entity key that
is in the english-name set: the processed key gets its relations
replaced by the pure outgoing dict, every other such key keeps its
value. -/
theorem vaurStep_get (cte : List (String × String)) (st : VState)
    (item : String × Entity) {k : String} (hk : k ∈ st.english) :
    k ∈ (vaurStep cte st item).english ∧
    ((item.1 ≠ k →
      dictGet (vaurStep cte st item).entities k = dictGet st.entities k) ∧
     (item.1 = k → ∀ e₀, dictGet st.entities k = some e₀ → item.2 = e₀ →
      dictGet (vaurStep cte st item).entities k =
        some { e₀ with
               relations := vaurEntityRels cte e₀.relations })) := by
  by_cases hrels : item.2.relations.isEmpty
  · have hstep : vaurStep cte st item = st := by simp [vaurStep, hrels]
    rw [hstep]
    refine ⟨hk, fun _ => rfl, ?_⟩
    intro hkk e₀ he₀ hitem
    rw [he₀]
    have hre : e₀.relations = [] := by
      rw [← hitem]
      exact List.isEmpty_iff.mp hrels
    have hout : vaurEntityRels cte e₀.relations = [] := by
      rw [hre]
      rfl
    rw [hout, ← hre]
  · have hinner := vaurInner_get_preserved cte st item.2 hk
    have hout := vaurRelsOut_inner cte st item.2
    by_cases hcond : vaurCond (vaurInner cte st item.2) item.2
    · have hstep : vaurStep cte st item =
          { entities := dictModify (vaurInner cte st item.2).entities item.1
              (fun e => { e with
                relations := vaurRelsOut (vaurInner cte st item.2) }),
            english := (vaurInner cte st item.2).english } := by
        simp [vaurStep, hrels, hcond]
      rw [hstep]
      refine ⟨hinner.2, ?_, ?_⟩
      · intro hne
        have := dictGet_dictModify_ne (vaurInner cte st item.2).entities
          (k := item.1) (fun e => { e with
            relations := vaurRelsOut (vaurInner cte st item.2) })
          (Ne.symm hne)
        rw [this, hinner.1]
      · intro hkk e₀ he₀ hitem
        subst hkk
        rw [dictGet_dictModify_self, hinner.1, he₀]
        rw [hout, hitem]
        rfl
    · have hstep : vaurStep cte st item =
          { entities := (vaurInner cte st item.2).entities,
            english := (vaurInner cte st item.2).english } := by
        simp [vaurStep, hrels, hcond]
      have hfix : vaurRelsOut (vaurInner cte st item.2) = item.2.relations := by
        simp [vaurCond] at hcond
        exact hcond.2
      rw [hstep]
      refine ⟨hinner.2, fun _ => hinner.1, ?_⟩
      intro hkk e₀ he₀ hitem
      rw [hinner.1, he₀]
      have : vaurEntityRels cte e₀.relations = e₀.relations := by
        rw [← hitem, ← hout, hfix]
      rw [this]

theorem foldl_englishStep_mono (l : List (String × Entity))
    (acc : List String) {x : String} (hx : x ∈ acc) :
    x ∈ l.foldl englishStep acc := by
  apply foldl_induction englishStep (fun s => x ∈ s)
  · intro s a hs
    unfold englishStep
    by_cases hc : a.2.chinese_name ≠ "" ∧ a.2.name ≠ ""
    · rw [if_pos hc]
      exact mem_listInsert_of_mem _ hs
    · rw [if_neg hc]
      exact hs
  · exact hx

theorem mem_buildEnglish {g : Graph} {p : String × Entity} (hp : p ∈ g)
    (hc : p.2.chinese_name ≠ "") (hn : p.2.name ≠ "") :
    p.2.name ∈ buildEnglish g := by
  unfold buildEnglish
  have haux : ∀ (l : List (String × Entity)) (acc : List String),
      p ∈ l → p.2.name ∈ l.foldl englishStep acc := by
    intro l
    induction l with
    | nil => intro acc h; simp at h
    | cons a rest ih =>
      intro acc h
      rcases List.mem_cons.mp h with h' | h'
      · subst h'
        simp only [List.foldl_cons]
        apply foldl_englishStep_mono
        unfold englishStep
        rw [if_pos ⟨hc, hn⟩]
        exact mem_listInsert_self acc p.2.name
      · exact ih (englishStep acc a) h'
  exact haux g [] hp

/-- Invariant of the outer loop used to track one entity's stored
value: the key stays in the english set, and the entry either still
waits in the unprocessed remainder with its original value or already
holds the target value `tv`. -/
def FvPhase (k : String) (e tv : Entity) (vst : VState)
    (rest : List (String × Entity)) : Prop :=
  k ∈ vst.english ∧ (dictKeys rest).Nodup ∧
  (((k, e) ∈ rest ∧ dictGet vst.entities k = some e) ∨
   ((∀ p ∈ rest, p.1 ≠ k) ∧ dictGet vst.entities k = some tv))

theorem FvPhase_step (cte : List (String × String)) (k : String)
    (e : Entity) (s : VState) (a : String × Entity)
    (rest : List (String × Entity))
    (h : FvPhase k e { e with relations := vaurEntityRels cte e.relations }
      s (a :: rest)) :
    FvPhase k e { e with relations := vaurEntityRels cte e.relations }
      (vaurStep cte s a) rest := by
  rcases h with ⟨hke, hnd', hphase⟩
  have hstep := vaurStep_get cte s a hke
  refine ⟨hstep.1, ?_, ?_⟩
  · simp only [dictKeys, List.map_cons, List.nodup_cons] at hnd'
    exact hnd'.2
  · rcases hphase with ⟨hin, hget⟩ | ⟨hout, hget⟩
    · rcases List.mem_cons.mp hin with hin' | hin'
      · -- this step processes our entity
        have hk1 : a.1 = k := by rw [← hin']
        have hk2 : a.2 = e := by rw [← hin']
        right
        constructor
        · intro p hp hpk
          simp only [dictKeys, List.map_cons, List.nodup_cons] at hnd'
          apply hnd'.1
          rw [hk1, ← hpk]
          exact List.mem_map.mpr ⟨p, hp, rfl⟩
        · exact hstep.2.2 hk1 e hget hk2
      · -- our entity is still waiting in the remainder
        by_cases hak : a.1 = k
        · exfalso
          simp only [dictKeys, List.map_cons, List.nodup_cons] at hnd'
          exact hnd'.1 (hak ▸ List.mem_map.mpr ⟨(k, e), hin', rfl⟩)
        · left
          exact ⟨hin', by rw [hstep.2.1 hak]; exact hget⟩
    · right
      refine ⟨fun p hp => hout p (List.mem_cons_of_mem a hp), ?_⟩
      rw [hstep.2.1 (hout a (List.mem_cons_self a rest))]
      exact hget

/-- Final value of one entity after the full pass: on a well-keyed,
fully named graph with distinct keys, the pass replaces exactly the
entity's relations by the pure outgoing dict and touches nothing else
on it. -/
theorem vaur_final_entity (g : Graph) (hwk : WellKeyed g) (hnm : AllNamed g)
    (hnd : (dictKeys g).Nodup) {k : String} {e : Entity} (hmem : (k, e) ∈ g) :
    dictGet (validateAndUpdateRelations g) k =
      some { e with relations := vaurEntityRels (buildCte g) e.relations } := by
  have hkeng : k ∈ buildEnglish g := by
    have := mem_buildEnglish hmem (hnm (k, e) hmem).1 (hnm (k, e) hmem).2
    rwa [hwk (k, e) hmem] at this
  have hfinal := foldl_rest_induction (vaurStep (buildCte g))
    (FvPhase k e { e with relations := vaurEntityRels (buildCte g) e.relations })
    (FvPhase_step (buildCte g) k e) g
    { entities := g, english := buildEnglish g }
    ⟨hkeng, hnd, Or.inl ⟨hmem, dictGet_of_mem_nodup hnd hmem⟩⟩
  rcases hfinal with ⟨_, _, hphase⟩
  rcases hphase with ⟨hin, _⟩ | ⟨_, hget⟩
  · simp at hin
  · exact hget

/-! ## Normalized entries and target grouping -/

/-- Target resolution: a display name maps to its canonical name,
anything else stays. -/
def resolveTarget (cte : List (String × String)) (t : String) : String :=
  match dictGet cte t with
  | some et => et
  | none => t

/-- The normalized form one relation item contributes to
`updated_relations`, or `none` when the item is skipped. -/
def normEntry (cte : List (String × String)) (q : String × RelDef) :
    Option (String × RelData) :=
  match q.2 with
  | .newFmt d =>
    match d.target with
    | none => none
    | some t =>
      if validTargetStr t then
        some (q.1, { d with target := some (resolveTarget cte t) })
      else none
  | .oldFmt s =>
    if validTargetStr s then
      some (q.1, { name := some q.1, target := some (resolveTarget cte s) })
    else none

/-- The (always present) target of a normalized entry. -/
def entryTgt (p : String × RelData) : String :=
  p.2.target.getD ""

/-- The grouping of normalized entries by target, in encounter order. -/
def groupBy (u : List (String × RelData)) : List (String × List String) :=
  u.foldl (fun acc p => ttrAdd acc (entryTgt p) p.1) []

theorem normEntry_key {cte : List (String × String)} {q : String × RelDef}
    {p : String × RelData} (h : normEntry cte q = some p) : p.1 = q.1 := by
  rcases q with ⟨rk, rd⟩
  cases rd with
  | newFmt d =>
    cases htd : d.target with
    | none => simp [normEntry, htd] at h
    | some t =>
      by_cases hv : validTargetStr t <;> simp [normEntry, htd, hv] at h
      rw [← h]
  | oldFmt s =>
    by_cases hv : validTargetStr s <;> simp [normEntry, hv] at h
    rw [← h]

theorem normEntry_target_isSome {cte : List (String × String)}
    {q : String × RelDef} {p : String × RelData}
    (h : normEntry cte q = some p) : p.2.target.isSome := by
  rcases q with ⟨rk, rd⟩
  cases rd with
  | newFmt d =>
    cases htd : d.target with
    | none => simp [normEntry, htd] at h
    | some t =>
      by_cases hv : validTargetStr t <;> simp [normEntry, htd, hv] at h
      rw [← h]
      rfl
  | oldFmt s =>
    by_cases hv : validTargetStr s <;> simp [normEntry, hv] at h
    rw [← h]
    rfl

/-- One `pureStep` either skips (when the item does not normalize) or
installs exactly the normalized entry. -/
theorem pureStep_norm (cte : List (String × String))
    (ut : List (String × RelData) × List (String × List String))
    (q : String × RelDef) :
    (normEntry cte q = none ∧ pureStep cte ut q = ut) ∨
    (∃ p, normEntry cte q = some p ∧
      pureStep cte ut q = (dictInsert ut.1 p.1 p.2, ttrAdd ut.2 (entryTgt p) p.1)) := by
  rcases q with ⟨rk, rd⟩
  cases rd with
  | newFmt d =>
    cases htd : d.target with
    | none => left; simp [normEntry, pureStep, htd]
    | some t =>
      by_cases hv : validTargetStr t
      · right
        refine ⟨(rk, { d with target := some (resolveTarget cte t) }), ?_, ?_⟩
        · simp [normEntry, htd, hv]
        · cases hct : dictGet cte t with
          | some et => simp [pureStep, htd, hv, hct, entryTgt, resolveTarget]
          | none =>
            simp [pureStep, htd, hv, hct, entryTgt, resolveTarget]
            rw [← htd]
      · left; simp [normEntry, pureStep, htd, hv]
  | oldFmt s =>
    by_cases hv : validTargetStr s
    · right
      refine ⟨(rk, { name := some rk, target := some (resolveTarget cte s) }),
        ?_, ?_⟩
      · simp [normEntry, hv]
      · cases hct : dictGet cte s with
        | some et => simp [pureStep, hv, hct, entryTgt, resolveTarget]
        | none => simp [pureStep, hv, hct, entryTgt, resolveTarget]
    · left; simp [normEntry, pureStep, hv]

theorem pure_fold_char (cte : List (String × String)) :
    ∀ (rels : List (String × RelDef))
      (ut : List (String × RelData) × List (String × List String)),
      rels.foldl (pureStep cte) ut =
        ((rels.filterMap (normEntry cte)).foldl
          (fun u p => dictInsert u p.1 p.2) ut.1,
         (rels.filterMap (normEntry cte)).foldl
          (fun acc p => ttrAdd acc (entryTgt p) p.1) ut.2) := by
  intro rels
  induction rels with
  | nil => intro ut; rfl
  | cons q rels ih =>
    intro ut
    rcases pureStep_norm cte ut q with ⟨hn, hstep⟩ | ⟨p, hn, hstep⟩
    · simp only [List.foldl_cons, List.filterMap_cons, hn, hstep]
      exact ih ut
    · simp only [List.foldl_cons, List.filterMap_cons, hn, hstep]
      exact ih _

theorem keys_filterMap_norm_sublist (cte : List (String × String))
    (rels : List (String × RelDef)) :
    ((rels.filterMap (normEntry cte)).map (·.1)).Sublist
      (rels.map (·.1)) := by
  induction rels with
  | nil => simp
  | cons q rels ih =>
    cases hn : normEntry cte q with
    | none =>
      simp only [List.filterMap_cons, hn, List.map_cons]
      exact ih.trans (List.sublist_cons_self _ _)
    | some p =>
      simp only [List.filterMap_cons, hn, List.map_cons]
      rw [normEntry_key hn]
      exact ih.cons₂ _

theorem dictGet_append {α : Type u} (l₁ l₂ : List (String × α)) (k : String) :
    dictGet (l₁ ++ l₂) k =
      match dictGet l₁ k with
      | some v => some v
      | none => dictGet l₂ k := by
  induction l₁ with
  | nil => simp [dictGet]
  | cons q rest ih =>
    rcases q with ⟨qk, qv⟩
    by_cases hq : qk = k <;> simp [dictGet, hq, ih]

theorem foldl_dictInsert_fresh {α : Type u} :
    ∀ (l acc : List (String × α)), (∀ p ∈ l, p.1 ∉ dictKeys acc) →
      ((l.map (·.1)).Nodup) →
      l.foldl (fun u p => dictInsert u p.1 p.2) acc = acc ++ l := by
  intro l
  induction l with
  | nil => intro acc _ _; simp
  | cons p rest ih =>
    intro acc hfresh hnd
    simp only [List.map_cons, List.nodup_cons] at hnd
    simp only [List.foldl_cons]
    rw [dictInsert_eq_append p.2 (hfresh p (List.mem_cons_self p rest))]
    rw [ih (acc ++ [p]) ?_ hnd.2]
    · simp
    · intro q hq
      simp only [dictKeys, List.map_append]
      intro hmem
      rcases List.mem_append.mp hmem with h' | h'
      · exact hfresh q (List.mem_cons_of_mem p hq) h'
      · simp at h'
        exact hnd.1 (h' ▸ List.mem_map.mpr ⟨q, hq, rfl⟩)

/-- The outgoing relation dict in terms of normalized entries: when the
entity's relation keys are distinct (always true of a Python dict), the
loop produces exactly the normalized entries, merged by target group. -/
theorem vaurEntityRels_char (cte : List (String × String))
    (rels : List (String × RelDef)) (hnd : (rels.map (·.1)).Nodup) :
    vaurEntityRels cte rels =
      (mergeDupRels (groupBy (rels.filterMap (normEntry cte)))
        (rels.filterMap (normEntry cte))).map
        (fun p => (p.1, RelDef.newFmt p.2)) := by
  unfold vaurEntityRels
  rw [pure_fold_char]
  have h1 : (rels.filterMap (normEntry cte)).foldl
      (fun u p => dictInsert u p.1 p.2) [] = rels.filterMap (normEntry cte) := by
    rw [foldl_dictInsert_fresh _ [] (by intro p _ h; simp [dictKeys] at h)
      ((keys_filterMap_norm_sublist cte rels).nodup hnd)]
    simp
  simp only [groupBy, h1]

/-! ## Characterization of the target grouping -/

theorem groupBy_go (t : String) :
    ∀ (l : List (String × RelData)) (acc : List (String × List String)),
      dictGet (l.foldl (fun acc p => ttrAdd acc (entryTgt p) p.1) acc) t =
        match dictGet acc t with
        | some ks => some (ks ++ (l.filter (fun p => entryTgt p = t)).map (·.1))
        | none =>
          if (l.filter (fun p => entryTgt p = t)).isEmpty then none
          else some ((l.filter (fun p => entryTgt p = t)).map (·.1)) := by
  intro l
  induction l with
  | nil =>
    intro acc
    cases h : dictGet acc t <;> simp [h]
  | cons p rest ih =>
    intro acc
    simp only [List.foldl_cons]
    by_cases hpt : entryTgt p = t
    · cases hacc : dictGet acc t with
      | some ks =>
        have hadd : ttrAdd acc (entryTgt p) p.1 =
            dictInsert acc t (ks ++ [p.1]) := by
          rw [ttrAdd, hpt, hacc]
        rw [ih, hadd, dictGet_dictInsert_self]
        simp [hpt, hacc]
      | none =>
        have hadd : ttrAdd acc (entryTgt p) p.1 = acc ++ [(t, [p.1])] := by
          rw [ttrAdd, hpt, hacc]
        rw [ih, hadd]
        have : dictGet (acc ++ [(t, [p.1])]) t = some [p.1] := by
          rw [dictGet_append, hacc]
          simp [dictGet]
        rw [this]
        simp [hpt, hacc]
    · have hget : dictGet (ttrAdd acc (entryTgt p) p.1) t = dictGet acc t := by
        unfold ttrAdd
        cases hacc' : dictGet acc (entryTgt p) with
        | some ks => exact dictGet_dictInsert_ne acc _ (fun h => hpt h.symm)
        | none =>
          rw [dictGet_append]
          cases h2 : dictGet acc t with
          | some v => rfl
          | none => simp [dictGet, hpt]
      rw [ih, hget]
      have hf : List.filter (fun q => decide (entryTgt q = t)) (p :: rest) =
          List.filter (fun q => decide (entryTgt q = t)) rest := by
        simp [List.filter_cons, hpt]
      cases h2 : dictGet acc t with
      | some ks => rw [hf]
      | none => rw [hf]

theorem groupBy_get (u : List (String × RelData)) (t : String) :
    dictGet (groupBy u) t =
      if (u.filter (fun p => entryTgt p = t)).isEmpty then none
      else some ((u.filter (fun p => entryTgt p = t)).map (·.1)) := by
  unfold groupBy
  rw [groupBy_go]
  simp [dictGet]

theorem groupBy_labels_nodup (u : List (String × RelData)) :
    ((groupBy u).map (·.1)).Nodup := by
  unfold groupBy
  apply foldl_induction (fun acc p => ttrAdd acc (entryTgt p) p.1)
    (fun acc => (acc.map (·.1)).Nodup)
  · intro acc p hacc
    unfold ttrAdd
    cases hg : dictGet acc (entryTgt p) with
    | some ks =>
      have heq : dictKeys (dictInsert acc (entryTgt p) (ks ++ [p.1])) =
          dictKeys acc := by
        rw [dictKeys_dictInsert]
        rw [if_pos (mem_keys_of_dictGet_isSome (by simp [hg]))]
      show (dictKeys (dictInsert acc (entryTgt p) (ks ++ [p.1]))).Nodup
      rw [heq]
      exact hacc
    | none =>
      have hnm : entryTgt p ∉ acc.map (·.1) := by
        intro hmem
        have := dictGet_isSome_of_mem_keys (l := acc) (x := entryTgt p)
          (by simpa [dictKeys] using hmem)
        rw [hg] at this
        simp at this
      simp [List.nodup_append, hacc, hnm]
  · simp

/-! ## Coherence of the grouping with the entry dict -/

/-- Coherence of a group list with an entry dict: distinct entry keys,
distinct group labels, every group non-empty with distinct member keys
each of which stores an entry targeting the group label, and pairwise
disjoint groups. -/
def GroupsOk (gs : List (String × List String))
    (u : List (String × RelData)) : Prop :=
  (dictKeys u).Nodup ∧
  (gs.map (·.1)).Nodup ∧
  (∀ gp ∈ gs, gp.2 ≠ [] ∧ gp.2.Nodup ∧
    ∀ x ∈ gp.2, ∃ d, dictGet u x = some d ∧ d.target = some gp.1) ∧
  List.Pairwise (fun a b => ∀ x, x ∈ a.2 → x ∉ b.2) gs

theorem mem_groupBy_get {u : List (String × RelData)}
    {gp : String × List String} (h : gp ∈ groupBy u) :
    dictGet (groupBy u) gp.1 = some gp.2 := by
  have hnd : (dictKeys (groupBy u)).Nodup := groupBy_labels_nodup u
  exact dictGet_of_mem_nodup hnd h

theorem groupBy_members {u : List (String × RelData)}
    {gp : String × List String} (h : gp ∈ groupBy u) :
    gp.2 = (u.filter (fun p => entryTgt p = gp.1)).map (·.1) ∧ gp.2 ≠ [] := by
  have hget := mem_groupBy_get h
  rw [groupBy_get] at hget
  by_cases he : (u.filter (fun p => entryTgt p = gp.1)).isEmpty
  · rw [if_pos he] at hget
    simp at hget
  · rw [if_neg he] at hget
    injection hget with h'
    constructor
    · exact h'.symm
    · intro hnil
      rw [hnil] at h'
      apply he
      rw [List.map_eq_nil_iff] at h'
      rw [h']
      rfl

theorem groupBy_ok (u : List (String × RelData))
    (hnd : (dictKeys u).Nodup) (hts : ∀ p ∈ u, p.2.target.isSome) :
    GroupsOk (groupBy u) u := by
  refine ⟨hnd, groupBy_labels_nodup u, ?_, ?_⟩
  · intro gp hgp
    rcases groupBy_members hgp with ⟨hks, hne⟩
    refine ⟨hne, ?_, ?_⟩
    · rw [hks]
      exact ((List.filter_sublist u).map Prod.fst).nodup hnd
    · intro x hx
      rw [hks] at hx
      rcases List.mem_map.mp hx with ⟨p, hpf, hpx⟩
      rcases List.mem_filter.mp hpf with ⟨hpu, hpt⟩
      refine ⟨p.2, ?_, ?_⟩
      · rw [← hpx]
        exact dictGet_of_mem_nodup hnd hpu
      · rcases Option.isSome_iff_exists.mp (hts p hpu) with ⟨tv, htv⟩
        have hteq : entryTgt p = gp.1 := by simpa using hpt
        rw [htv, ← hteq, entryTgt, htv]
        rfl
  · have hlab : List.Pairwise (fun (a b : String × List String) => a.1 ≠ b.1)
        (groupBy u) := by
      have hn := groupBy_labels_nodup u
      exact List.pairwise_map.mp hn
    refine hlab.imp_of_mem ?_
    intro a b ha hb hne x hxa hxb
    rcases groupBy_members ha with ⟨hka, _⟩
    rcases groupBy_members hb with ⟨hkb, _⟩
    rw [hka] at hxa
    rw [hkb] at hxb
    rcases List.mem_map.mp hxa with ⟨p, hpf, hpx⟩
    rcases List.mem_map.mp hxb with ⟨q, hqf, hqx⟩
    rcases List.mem_filter.mp hpf with ⟨hpu, hpt⟩
    rcases List.mem_filter.mp hqf with ⟨hqu, hqt⟩
    have hpq : p = q :=
      keys_nodup_entry_unique hnd hpu hqu (by rw [hpx, hqx])
    apply hne
    have h1 : entryTgt p = a.1 := by simpa using hpt
    have h2 : entryTgt q = b.1 := by simpa using hqt
    rw [← h1, ← h2, hpq]

/-! ## Effect of one group merge on the entry dict -/

theorem dictGet_filter_notmem {α : Type u} (l : List (String × α))
    (bad : List String) {x : String} (hx : x ∉ bad) :
    dictGet (l.filter (fun p => p.1 ∉ bad)) x = dictGet l x := by
  induction l with
  | nil => rfl
  | cons q rest ih =>
    by_cases hq : q.1 ∈ bad
    · have hqx : q.1 ≠ x := fun h => hx (h ▸ hq)
      simp only [List.filter_cons]
      rw [if_neg (by simpa using hq)]
      rw [ih]
      simp [dictGet, hqx]
    · simp only [List.filter_cons]
      rw [if_pos (by simpa using hq)]
      rcases q with ⟨qk, qv⟩
      by_cases hqx : qk = x
      · simp [dictGet, hqx]
      · simp only [dictGet, if_neg hqx]
        exact ih

theorem dictGet_filter_mem {α : Type u} (l : List (String × α))
    (bad : List String) {x : String} (hx : x ∈ bad) :
    dictGet (l.filter (fun p => p.1 ∉ bad)) x = none := by
  induction l with
  | nil => rfl
  | cons q rest ih =>
    by_cases hq : q.1 ∈ bad
    · simp only [List.filter_cons]
      rw [if_neg (by simpa using hq)]
      exact ih
    · have hqx : q.1 ≠ x := fun h => hq (h ▸ hx)
      simp only [List.filter_cons]
      rw [if_pos (by simpa using hq)]
      rcases q with ⟨qk, qv⟩
      simp only [dictGet, if_neg (by simpa using hqx)]
      exact ih

theorem mergeGroup_get_notmem {u : List (String × RelData)}
    {grp : String × List String} {x : String} (hx : x ∉ grp.2) :
    dictGet (mergeGroup u grp) x = dictGet u x := by
  rcases grp with ⟨t, ks⟩
  match ks with
  | [] => rfl
  | [k] => rfl
  | primary :: k2 :: rest =>
    have hxp : x ≠ primary := by
      intro h; exact hx (h ▸ List.mem_cons_self _ _)
    have hxr : x ∉ k2 :: rest := by
      intro h; exact hx (List.mem_cons_of_mem _ h)
    show dictGet ((dictModify u primary _).filter
      (fun p => p.1 ∉ k2 :: rest)) x = dictGet u x
    rw [dictGet_filter_notmem _ _ hxr]
    exact dictGet_dictModify_ne u _ hxp

theorem mergeGroup_get_tail {u : List (String × RelData)}
    {t primary : String} {tl : List String} {x : String} (hx : x ∈ tl) :
    dictGet (mergeGroup u (t, primary :: tl)) x = none := by
  match tl, hx with
  | k2 :: rest, hx =>
    show dictGet ((dictModify u primary _).filter
      (fun p => p.1 ∉ k2 :: rest)) x = none
    exact dictGet_filter_mem _ _ hx

theorem mergeGroup_get_primary {u : List (String × RelData)}
    {t primary : String} {tl : List String} (hne : tl ≠ [])
    (hp : primary ∉ tl) :
    dictGet (mergeGroup u (t, primary :: tl)) primary =
      (dictGet u primary).map (fun d =>
        { d with aliases := some (d.aliases.getD [] ++
            tl.map (mergedNameAt u)) }) := by
  match tl, hne with
  | k2 :: rest, _ =>
    show dictGet ((dictModify u primary _).filter
      (fun p => p.1 ∉ k2 :: rest)) primary = _
    rw [dictGet_filter_notmem _ _ hp]
    exact dictGet_dictModify_self u primary _

theorem mergeGroup_keys_mono {u : List (String × RelData)}
    {grp : String × List String} {x : String}
    (hx : (dictGet (mergeGroup u grp) x).isSome) : (dictGet u x).isSome := by
  rcases grp with ⟨t, ks⟩
  match ks with
  | [] => exact hx
  | [k] => exact hx
  | primary :: k2 :: rest =>
    by_cases hxm : x ∈ k2 :: rest
    · rw [mergeGroup_get_tail hxm] at hx
      simp at hx
    · by_cases hxp : x = primary
      · subst hxp
        by_cases hrest : x ∈ k2 :: rest
        · exact absurd hrest hxm
        · rw [mergeGroup_get_primary (by simp) ?_] at hx
          · rcases h : dictGet u x with _ | v
            · rw [h] at hx; simp at hx
            · simp
          · exact hxm
      · rw [mergeGroup_get_notmem (by
          intro h
          rcases List.mem_cons.mp h with h' | h'
          · exact hxp h'
          · exact hxm h')] at hx
        exact hx

theorem mergeGroup_keys_nodup {u : List (String × RelData)}
    {grp : String × List String} (hnd : (dictKeys u).Nodup) :
    (dictKeys (mergeGroup u grp)).Nodup := by
  rcases grp with ⟨t, ks⟩
  match ks with
  | [] => exact hnd
  | [k] => exact hnd
  | primary :: k2 :: rest =>
    apply keys_nodup_filter
    show (dictKeys (dictModify u primary _)).Nodup
    rw [dictKeys_dictModify]
    exact hnd

/-- Coherence is preserved when the first group is merged away. -/
theorem GroupsOk_step {gp : String × List String}
    {gs : List (String × List String)} {u : List (String × RelData)}
    (h : GroupsOk (gp :: gs) u) : GroupsOk gs (mergeGroup u gp) := by
  rcases h with ⟨hnd, hlab, hmem, hpw⟩
  refine ⟨mergeGroup_keys_nodup hnd, ?_, ?_, ?_⟩
  · simpa using hlab.of_cons
  · intro g hg
    rcases hmem g (List.mem_cons_of_mem gp hg) with ⟨hne, hgnd, hent⟩
    refine ⟨hne, hgnd, ?_⟩
    intro x hx
    rcases hent x hx with ⟨d, hd, ht⟩
    have hxnot : x ∉ gp.2 := by
      intro hxgp
      exact (List.pairwise_cons.mp hpw).1 g hg x hxgp hx
    refine ⟨d, ?_, ht⟩
    rw [mergeGroup_get_notmem hxnot]
    exact hd
  · exact (List.pairwise_cons.mp hpw).2

/-! ## Behaviour of the whole duplicate-relation merge -/

theorem mergeDupRels_get_notmem {gs : List (String × List String)} :
    ∀ {u : List (String × RelData)} {x : String},
      (∀ gp ∈ gs, x ∉ gp.2) →
      dictGet (mergeDupRels gs u) x = dictGet u x := by
  induction gs with
  | nil => intro u x _; rfl
  | cons gp gs ih =>
    intro u x hx
    have h1 : mergeDupRels (gp :: gs) u = mergeDupRels gs (mergeGroup u gp) :=
      rfl
    rw [h1, ih (fun g hg => hx g (List.mem_cons_of_mem gp hg))]
    exact mergeGroup_get_notmem (hx gp (List.mem_cons_self gp gs))

theorem mergeGroup_get_none {u : List (String × RelData)}
    {grp : String × List String} {x : String} (hx : dictGet u x = none) :
    dictGet (mergeGroup u grp) x = none := by
  cases h : dictGet (mergeGroup u grp) x with
  | none => rfl
  | some v =>
    have hs : (dictGet (mergeGroup u grp) x).isSome := by simp [h]
    have := mergeGroup_keys_mono hs
    rw [hx] at this
    simp at this

theorem mergeDupRels_get_none {gs : List (String × List String)} :
    ∀ {u : List (String × RelData)} {x : String}, dictGet u x = none →
      dictGet (mergeDupRels gs u) x = none := by
  induction gs with
  | nil => intro u x hx; exact hx
  | cons gp gs ih => intro u x hx; exact ih (mergeGroup_get_none hx)

theorem mergeDupRels_primary {gs : List (String × List String)} :
    ∀ {u : List (String × RelData)}, GroupsOk gs u →
      ∀ {t k₀ : String} {tl : List String} {d₀ : RelData},
        (t, k₀ :: tl) ∈ gs → dictGet u k₀ = some d₀ →
        dictGet (mergeDupRels gs u) k₀ =
          some (if tl.isEmpty then d₀
            else { d₀ with aliases := some (d₀.aliases.getD [] ++
                tl.map (mergedNameAt u)) }) := by
  induction gs with
  | nil => intro u _ t k₀ tl d₀ hmem; simp at hmem
  | cons gp gs ih =>
    intro u hok t k₀ tl d₀ hmem hd₀
    have hpw := hok.2.2.2
    rcases List.mem_cons.mp hmem with hgp | hmem'
    · -- our group is processed first
      subst hgp
      have hk0 : k₀ ∈ (t, k₀ :: tl).2 := List.mem_cons_self _ _
      have hnot : ∀ g ∈ gs, k₀ ∉ g.2 :=
        fun g hg => (List.pairwise_cons.mp hpw).1 g hg k₀ hk0
      have h1 : mergeDupRels ((t, k₀ :: tl) :: gs) u =
          mergeDupRels gs (mergeGroup u (t, k₀ :: tl)) := rfl
      rw [h1, mergeDupRels_get_notmem hnot]
      cases tl with
      | nil => simpa [mergeGroup] using hd₀
      | cons k2 rest =>
        have hnd' : (k₀ :: k2 :: rest).Nodup :=
          (hok.2.2.1 (t, k₀ :: k2 :: rest) (List.mem_cons_self _ _)).2.1
        have hp : k₀ ∉ k2 :: rest := (List.nodup_cons.mp hnd').1
        rw [mergeGroup_get_primary (by simp) hp, hd₀]
        simp
    · -- our group comes later; gp is merged first and touches nothing of it
      have hdj : ∀ x ∈ (t, k₀ :: tl).2, x ∉ gp.2 := by
        intro x hx hxgp
        exact (List.pairwise_cons.mp hpw).1 _ hmem' x hxgp hx
      have hk0 : k₀ ∉ gp.2 := hdj k₀ (List.mem_cons_self _ _)
      have h1 : mergeDupRels (gp :: gs) u =
          mergeDupRels gs (mergeGroup u gp) := rfl
      rw [h1]
      have hd₀' : dictGet (mergeGroup u gp) k₀ = some d₀ := by
        rw [mergeGroup_get_notmem hk0]; exact hd₀
      rw [ih (GroupsOk_step hok) hmem' hd₀']
      congr 1
      cases tl with
      | nil => rfl
      | cons k2 rest =>
        have hmn : List.map (mergedNameAt (mergeGroup u gp)) (k2 :: rest) =
            List.map (mergedNameAt u) (k2 :: rest) := by
          apply List.map_congr_left
          intro x hx
          unfold mergedNameAt
          rw [mergeGroup_get_notmem (hdj x (List.mem_cons_of_mem _ hx))]
        simp only [List.isEmpty_cons, hmn]

theorem mergeDupRels_tail {gs : List (String × List String)} :
    ∀ {u : List (String × RelData)}, GroupsOk gs u →
      ∀ {t k₀ : String} {tl : List String} {x : String},
        (t, k₀ :: tl) ∈ gs → x ∈ tl →
        dictGet (mergeDupRels gs u) x = none := by
  induction gs with
  | nil => intro u _ t k₀ tl x hmem; simp at hmem
  | cons gp gs ih =>
    intro u hok t k₀ tl x hmem hx
    have hpw := hok.2.2.2
    rcases List.mem_cons.mp hmem with hgp | hmem'
    · subst hgp
      have h1 : mergeDupRels ((t, k₀ :: tl) :: gs) u =
          mergeDupRels gs (mergeGroup u (t, k₀ :: tl)) := rfl
      rw [h1]
      exact mergeDupRels_get_none (mergeGroup_get_tail hx)
    · have hxnot : x ∉ gp.2 := by
        intro hxgp
        exact (List.pairwise_cons.mp hpw).1 _ hmem' x hxgp
          (List.mem_cons_of_mem _ hx)
      have h1 : mergeDupRels (gp :: gs) u =
          mergeDupRels gs (mergeGroup u gp) := rfl
      rw [h1]
      exact ih (GroupsOk_step hok) hmem' hx

/-- Every entry of the merged dict whose target is a group's label is
the first-encountered relation key of that group. -/
theorem mergeDupRels_target_key {gs : List (String × List String)}
    {u : List (String × RelData)} (hok : GroupsOk gs u)
    (hcov : ∀ p ∈ u, ∃ gp ∈ gs, p.1 ∈ gp.2) {p : String × RelData}
    (hp : p ∈ mergeDupRels gs u) {t k₀ : String} {tl : List String}
    (hgrp : (t, k₀ :: tl) ∈ gs) (htp : p.2.target = some t) :
    p.1 = k₀ := by
  obtain ⟨q, hq, hqk, hqt⟩ := mergeDupRels_descend hp
  obtain ⟨gp, hgp, hqg⟩ := hcov q hq
  obtain ⟨hne, hnd', hent⟩ := hok.2.2.1 gp hgp
  obtain ⟨d, hd, hdt⟩ := hent q.1 hqg
  have hdq : d = q.2 := by
    have h2 := dictGet_of_mem_nodup hok.1 hq
    rw [hd] at h2
    injection h2
  have hgpt : gp.1 = t := by
    have : q.2.target = some t := by rw [hqt, htp]
    rw [hdq, this] at hdt
    injection hdt with h'
    exact h'.symm
  have hgpe : gp = (t, k₀ :: tl) := by
    apply keys_nodup_entry_unique (l := gs) ?_ hgp hgrp hgpt
    exact hok.2.1
  rw [hgpe] at hqg
  rcases List.mem_cons.mp hqg with h' | h'
  · rw [← hqk, h']
  · exfalso
    have hnone := mergeDupRels_tail hok hgrp h'
    have hsome := dictGet_isSome_of_mem_keys
      (mem_keys_of_mem (l := mergeDupRels gs u) hp)
    rw [← hqk] at hsome
    rw [hnone] at hsome
    simp at hsome

/-! ## Stub creation for unresolved targets -/

/-- The raw target string of a relation value (old format: the value
itself; dict format: the `target` field). -/
def rawTarget : RelDef → Option String
  | .newFmt d => d.target
  | .oldFmt s => some s

theorem buildCte_key_is_chinese (g : Graph) :
    ∀ c ∈ dictKeys (buildCte g), ∃ p ∈ g, p.2.chinese_name = c := by
  unfold buildCte
  apply foldl_induction_mem g _
    (fun acc => ∀ c ∈ dictKeys acc, ∃ p ∈ g, p.2.chinese_name = c)
  · intro acc a ha hacc c hc
    unfold cteStep at hc
    by_cases hcond : a.2.chinese_name ≠ "" ∧ a.2.name ≠ ""
    · rw [if_pos hcond] at hc
      rcases mem_keys_dictInsert.mp hc with h' | h'
      · exact hacc c h'
      · exact ⟨a, ha, h'.symm⟩
    · rw [if_neg hcond] at hc
      exact hacc c hc
  · intro c hc
    simp [dictKeys] at hc

/-- When the target neither resolves nor is a known english name,
`processRel` registers exactly the stub. -/
theorem processRel_stub_hit (cte : List (String × String)) (r : RState)
    (item : String × RelDef) {t : String} (hraw : rawTarget item.2 = some t)
    (hv : validTargetStr t) (hct : dictGet cte t = none)
    (he : t ∉ r.english) :
    (processRel cte r item).entities = dictInsert r.entities t (mkStub t) ∧
    (processRel cte r item).english = listInsert r.english t := by
  rcases item with ⟨rk, rd⟩
  cases rd with
  | newFmt d =>
    have htd : d.target = some t := hraw
    constructor <;> simp [processRel, htd, hv, hct, he]
  | oldFmt s =>
    have hst : s = t := by injection hraw
    subst hst
    constructor <;> simp [processRel, hv, hct, he]

/-- Dichotomy maintained through the relation loop: either the stub for
`T` is installed (and `T` is a known name), or `T` is still unknown and
unmapped. -/
def StubP (T : String) (entities : Graph) (english : List String) : Prop :=
  (dictGet entities T = some (mkStub T) ∧ T ∈ english) ∨
  (T ∉ english ∧ dictGet entities T = none)

theorem processRel_stubP (cte : List (String × String)) (r : RState)
    (item : String × RelDef) {T : String}
    (h : StubP T r.entities r.english) :
    StubP T (processRel cte r item).entities (processRel cte r item).english := by
  rcases processRel_spec cte r item with heq | ⟨d', t, _, _, _, hcase⟩
  · rw [heq]; exact h
  · rcases hcase with ⟨hent, heng, _⟩ | ⟨hne, hent, heng⟩
    · rw [hent, heng]; exact h
    · rcases h with ⟨hget, hmem⟩ | ⟨hnm, hget⟩
      · left
        have htT : t ≠ T := fun hh => hne (hh ▸ hmem)
        refine ⟨?_, ?_⟩
        · rw [hent, dictGet_dictInsert_ne _ _ (Ne.symm htT)]
          exact hget
        · rw [heng]
          exact mem_listInsert_of_mem t hmem
      · by_cases htT : t = T
        · left
          subst htT
          refine ⟨?_, ?_⟩
          · rw [hent]
            exact dictGet_dictInsert_self _ _ _
          · rw [heng]
            exact mem_listInsert_self _ _
        · right
          refine ⟨?_, ?_⟩
          · rw [heng]
            intro hmem
            rcases mem_of_mem_listInsert hmem with h' | h'
            · exact hnm h'
            · exact htT h'.symm
          · rw [hent, dictGet_dictInsert_ne _ _ (Ne.symm htT)]
            exact hget

theorem processRel_stubP_left (cte : List (String × String)) (r : RState)
    (item : String × RelDef) {T : String}
    (h : dictGet r.entities T = some (mkStub T)) (hm : T ∈ r.english) :
    dictGet (processRel cte r item).entities T = some (mkStub T) ∧
    T ∈ (processRel cte r item).english := by
  have := processRel_stubP cte r item (T := T) (Or.inl ⟨h, hm⟩)
  rcases this with h' | ⟨hnm, _⟩
  · exact h'
  · exact absurd (processRel_english_mono cte r item hm) hnm

/-- Through one entity's relation loop: if the entity carries a
relation whose raw target is the unresolved `T`, the loop installs the
stub. -/
theorem vaurInner_stub (cte : List (String × String)) (st : VState)
    (e : Entity) {T : String} (hv : validTargetStr T)
    (hct : dictGet cte T = none)
    {rk : String} {rd : RelDef} (hrel : (rk, rd) ∈ e.relations)
    (hraw : rawTarget rd = some T)
    (h : StubP T st.entities st.english) :
    dictGet (vaurInner cte st e).entities T = some (mkStub T) ∧
    T ∈ (vaurInner cte st e).english := by
  unfold vaurInner
  have hfold := foldl_rest_induction (processRel cte)
    (fun r rrest =>
      (dictGet r.entities T = some (mkStub T) ∧ T ∈ r.english) ∨
      ((T ∉ r.english ∧ dictGet r.entities T = none) ∧ (rk, rd) ∈ rrest))
    ?_ e.relations
    { updated := [], ttr := [], entityUpdated := false,
      entities := st.entities, english := st.english }
    ?_
  · rcases hfold with h' | ⟨_, hmem⟩
    · exact h'
    · simp at hmem
  · intro r a rest hr
    rcases hr with ⟨hget, hmem⟩ | ⟨⟨hnm, hget⟩, hmem⟩
    · exact Or.inl (processRel_stubP_left cte r a hget hmem)
    · rcases List.mem_cons.mp hmem with ha | ha
      · left
        have hhit := processRel_stub_hit cte r a (t := T)
          (by rw [← ha]; exact hraw) hv hct hnm
        rw [hhit.1, hhit.2]
        exact ⟨dictGet_dictInsert_self _ _ _, mem_listInsert_self _ _⟩
      · have := processRel_stubP cte r a (T := T) (Or.inr ⟨hnm, hget⟩)
        rcases this with h' | h'
        · exact Or.inl h'
        · exact Or.inr ⟨h', ha⟩
  · rcases h with h' | h'
    · exact Or.inl h'
    · exact Or.inr ⟨h', hrel⟩

theorem vaurInner_stubP (cte : List (String × String)) (st : VState)
    (e : Entity) {T : String} (h : StubP T st.entities st.english) :
    StubP T (vaurInner cte st e).entities (vaurInner cte st e).english := by
  unfold vaurInner
  apply foldl_induction (processRel cte)
    (fun r => StubP T r.entities r.english)
  · intro r a hr
    exact processRel_stubP cte r a hr
  · exact h

theorem vaurStep_stubP (cte : List (String × String)) (st : VState)
    (a : String × Entity) {T : String} (haT : a.1 ≠ T)
    (h : StubP T st.entities st.english) :
    StubP T (vaurStep cte st a).entities (vaurStep cte st a).english := by
  unfold vaurStep
  by_cases hemp : a.2.relations.isEmpty
  · rw [if_pos hemp]; exact h
  · rw [if_neg hemp]
    have hr := vaurInner_stubP cte st a.2 h
    by_cases hcond : vaurCond (vaurInner cte st a.2) a.2
    · rw [if_pos hcond]
      dsimp only
      rcases hr with ⟨hget, hmem⟩ | ⟨hnm, hget⟩
      · exact Or.inl ⟨by rw [dictGet_dictModify_ne _ _ (Ne.symm haT)]; exact hget, hmem⟩
      · exact Or.inr ⟨hnm, by rw [dictGet_dictModify_ne _ _ (Ne.symm haT)]; exact hget⟩
    · rw [if_neg hcond]
      exact hr

theorem vaurInner_stub_left (cte : List (String × String)) (st : VState)
    (e : Entity) {T : String}
    (hget : dictGet st.entities T = some (mkStub T)) (hmem : T ∈ st.english) :
    dictGet (vaurInner cte st e).entities T = some (mkStub T) ∧
    T ∈ (vaurInner cte st e).english := by
  unfold vaurInner
  apply foldl_induction (processRel cte)
    (fun r => dictGet r.entities T = some (mkStub T) ∧ T ∈ r.english)
  · intro r a hr
    exact processRel_stubP_left cte r a hr.1 hr.2
  · exact ⟨hget, hmem⟩

theorem vaurStep_stub_left (cte : List (String × String)) (st : VState)
    (a : String × Entity) {T : String} (haT : a.1 ≠ T)
    (hget : dictGet st.entities T = some (mkStub T)) (hmem : T ∈ st.english) :
    dictGet (vaurStep cte st a).entities T = some (mkStub T) ∧
    T ∈ (vaurStep cte st a).english := by
  unfold vaurStep
  by_cases hemp : a.2.relations.isEmpty
  · rw [if_pos hemp]; exact ⟨hget, hmem⟩
  · rw [if_neg hemp]
    have hr := vaurInner_stub_left cte st a.2 hget hmem
    by_cases hcond : vaurCond (vaurInner cte st a.2) a.2
    · rw [if_pos hcond]
      dsimp only
      exact ⟨by rw [dictGet_dictModify_ne _ _ (Ne.symm haT)]; exact hr.1, hr.2⟩
    · rw [if_neg hcond]
      exact hr

theorem vaurStep_stub_hit (cte : List (String × String)) (st : VState)
    (a : String × Entity) {T : String} (haT : a.1 ≠ T)
    (hv : validTargetStr T) (hct : dictGet cte T = none)
    {rk : String} {rd : RelDef} (hrel : (rk, rd) ∈ a.2.relations)
    (hraw : rawTarget rd = some T)
    (h : StubP T st.entities st.english) :
    dictGet (vaurStep cte st a).entities T = some (mkStub T) ∧
    T ∈ (vaurStep cte st a).english := by
  unfold vaurStep
  by_cases hemp : a.2.relations.isEmpty
  · rw [List.isEmpty_iff] at hemp
    rw [hemp] at hrel
    simp at hrel
  · rw [if_neg hemp]
    have hr := vaurInner_stub cte st a.2 hv hct hrel hraw h
    by_cases hcond : vaurCond (vaurInner cte st a.2) a.2
    · rw [if_pos hcond]
      dsimp only
      exact ⟨by rw [dictGet_dictModify_ne _ _ (Ne.symm haT)]; exact hr.1, hr.2⟩
    · rw [if_neg hcond]
      exact hr

/-- The whole pass creates the stub: if some entity of the graph has a
relation whose raw target `T` is a valid (non-blank) string that is
neither a live key nor any entity's chinese display name, then after
`validate_and_update_relations` the graph maps `T` to the auto-created
stub entity. -/
theorem vaur_creates_stub (g : Graph) (hwk : WellKeyed g)
    {T : String} (hTv : validTargetStr T)
    (hTk : T ∉ dictKeys g)
    (hTc : ∀ p ∈ g, p.2.chinese_name ≠ T)
    {k : String} {e : Entity} (hke : (k, e) ∈ g)
    {rk : String} {rd : RelDef} (hrel : (rk, rd) ∈ e.relations)
    (hraw : rawTarget rd = some T) :
    dictGet (validateAndUpdateRelations g) T = some (mkStub T) := by
  have hcte : dictGet (buildCte g) T = none := by
    cases hc : dictGet (buildCte g) T with
    | none => rfl
    | some v =>
      have hmem := mem_keys_of_dictGet_isSome (by rw [hc]; rfl)
      rcases buildCte_key_is_chinese g T hmem with ⟨p, hp, hpc⟩
      exact absurd hpc (hTc p hp)
  have hTe : T ∉ buildEnglish g := by
    intro hmem
    rcases buildEnglish_is_name g T hmem with ⟨p, hp, hpn⟩
    exact hTk (hpn ▸ hwk p hp ▸ mem_keys_of_mem hp)
  unfold validateAndUpdateRelations
  have hkeys : ∀ p ∈ g, p.1 ≠ T := by
    intro p hp hpT
    exact hTk (hpT ▸ mem_keys_of_mem hp)
  have hfold := foldl_rest_induction (vaurStep (buildCte g))
    (fun st rrest =>
      (∀ p ∈ rrest, p.1 ≠ T) ∧
      ((dictGet st.entities T = some (mkStub T) ∧ T ∈ st.english) ∨
       ((T ∉ st.english ∧ dictGet st.entities T = none) ∧ (k, e) ∈ rrest)))
    ?_ g { entities := g, english := buildEnglish g } ?_
  · rcases hfold.2 with h' | ⟨_, hmem⟩
    · exact h'.1
    · simp at hmem
  · intro st a rest hst
    obtain ⟨hne, hcase⟩ := hst
    have haT : a.1 ≠ T := hne a (List.mem_cons_self a rest)
    refine ⟨fun p hp => hne p (List.mem_cons_of_mem a hp), ?_⟩
    rcases hcase with ⟨hget, hmem⟩ | ⟨hP, hmem⟩
    · exact Or.inl (vaurStep_stub_left (buildCte g) st a haT hget hmem)
    · rcases List.mem_cons.mp hmem with ha | ha
      · left
        have hrel' : (rk, rd) ∈ a.2.relations := by
          rw [← ha]; exact hrel
        exact vaurStep_stub_hit (buildCte g) st a haT hTv hcte hrel' hraw
          (Or.inr hP)
      · have := vaurStep_stubP (buildCte g) st a haT (T := T) (Or.inr hP)
        rcases this with h' | h'
        · exact Or.inl h'
        · exact Or.inr ⟨h', ha⟩
  · refine ⟨hkeys, Or.inr ⟨⟨hTe, ?_⟩, hke⟩⟩
    cases hg : dictGet g T with
    | none => rfl
    | some v =>
      exact absurd (mem_keys_of_dictGet_isSome (by rw [hg]; rfl)) hTk

/-! ## Exactly one entry per duplicated target -/

theorem mergeDupRels_keys_nodup {gs : List (String × List String)} :
    ∀ {u : List (String × RelData)}, GroupsOk gs u →
      (dictKeys (mergeDupRels gs u)).Nodup := by
  induction gs with
  | nil => intro u hok; exact hok.1
  | cons gp gs ih =>
    intro u hok
    have h1 : mergeDupRels (gp :: gs) u =
        mergeDupRels gs (mergeGroup u gp) := rfl
    rw [h1]
    exact ih (GroupsOk_step hok)

theorem filter_singleton_of_unique {α : Type u} :
    ∀ {l : List (String × α)}, (dictKeys l).Nodup →
      ∀ {P : String × α → Bool} {a : String × α}, a ∈ l → P a →
        (∀ q ∈ l, P q → q.1 = a.1) → l.filter P = [a] := by
  intro l
  induction l with
  | nil => intro _ P a ha; simp at ha
  | cons b rest ih =>
    intro hnd P a ha hPa huniq
    simp only [dictKeys, List.map_cons, List.nodup_cons] at hnd
    by_cases hPb : P b
    · have hba : b.1 = a.1 := huniq b (List.mem_cons_self _ _) hPb
      have hab : a = b := by
        rcases List.mem_cons.mp ha with h' | h'
        · exact h'
        · exact absurd (by rw [hba]; exact List.mem_map.mpr ⟨a, h', rfl⟩)
            hnd.1
      subst hab
      rw [List.filter_cons, if_pos hPb]
      have hrest : rest.filter P = [] := by
        rw [List.filter_eq_nil_iff]
        intro q hq hPq
        exact hnd.1
          (huniq q (List.mem_cons_of_mem _ hq) hPq ▸
            List.mem_map.mpr ⟨q, hq, rfl⟩)
      rw [hrest]
    · rw [List.filter_cons, if_neg hPb]
      have ha' : a ∈ rest := by
        rcases List.mem_cons.mp ha with h' | h'
        · exact absurd (h' ▸ hPa) hPb
        · exact h'
      exact ih hnd.2 ha' hPa
        (fun q hq hPq => huniq q (List.mem_cons_of_mem _ hq) hPq)

theorem dictGet_map_snd {α β : Type u} (f : α → β) (l : List (String × α))
    (k : String) :
    dictGet (l.map (fun p => (p.1, f p.2))) k = (dictGet l k).map f := by
  induction l with
  | nil => rfl
  | cons q rest ih =>
    by_cases hq : q.1 = k <;> simp [dictGet, hq, ih]

/-- The normalized relation entries of one entity: targets resolved
through the graph's chinese→english map, unusable targets dropped. -/
def normRels (g : Graph) (e : Entity) : List (String × RelData) :=
  e.relations.filterMap (normEntry (buildCte g))

theorem normRels_keys_nodup (g : Graph) (e : Entity)
    (hrnd : (dictKeys e.relations).Nodup) :
    (dictKeys (normRels g e)).Nodup :=
  (keys_filterMap_norm_sublist (buildCte g) e.relations).nodup hrnd

theorem normRels_target_isSome (g : Graph) (e : Entity) :
    ∀ p ∈ normRels g e, p.2.target.isSome := by
  intro p hp
  rcases List.mem_filterMap.mp hp with ⟨q, _, hq⟩
  exact normEntry_target_isSome hq

/-- Every normalized entry's key lies in some group of the target
grouping. -/
theorem groupBy_covers (u : List (String × RelData)) :
    ∀ p ∈ u, ∃ gp ∈ groupBy u, p.1 ∈ gp.2 := by
  intro p hp
  refine ⟨(entryTgt p, (u.filter (fun q => entryTgt q = entryTgt p)).map (·.1)),
    ?_, ?_⟩
  · apply dictGet_mem
    rw [groupBy_get]
    rw [if_neg ?_]
    intro hemp
    rw [List.isEmpty_iff, List.filter_eq_nil_iff] at hemp
    exact hemp p hp (by simp)
  · exact List.mem_map.mpr ⟨p, List.mem_filter.mpr ⟨hp, by simp⟩, rfl⟩

/-- Per-entity outcome of the duplicate-target merge: among the
normalized entries resolving to target `t` (listed `p₀ :: ps` in
encounter order), only the first survives, carrying the display names
of the others in its aliases, and the others' keys are gone. -/
theorem vaur_dup_merge (g : Graph) (hwk : WellKeyed g) (hnm : AllNamed g)
    (hnd : (dictKeys g).Nodup) {k : String} {e : Entity} (hke : (k, e) ∈ g)
    (hrnd : (dictKeys e.relations).Nodup)
    {t : String} {p₀ : String × RelData} {ps : List (String × RelData)}
    (hdup : (normRels g e).filter (fun p => entryTgt p = t) = p₀ :: ps) :
    ∃ e', dictGet (validateAndUpdateRelations g) k = some e' ∧
      e'.relations.filter (fun q => relTarget q.2 = some t) =
        [(p₀.1, RelDef.newFmt (if ps.isEmpty then p₀.2
          else { p₀.2 with aliases := some (p₀.2.aliases.getD [] ++
            ps.map (fun q => q.2.name.getD q.1)) }))] ∧
      (∀ q ∈ ps, dictGet e'.relations q.1 = none) ∧
      dictGet e'.relations p₀.1 =
        some (RelDef.newFmt (if ps.isEmpty then p₀.2
          else { p₀.2 with aliases := some (p₀.2.aliases.getD [] ++
            ps.map (fun q => q.2.name.getD q.1)) })) := by
  set cte := buildCte g with hcte
  set u := normRels g e with hu
  have hund : (dictKeys u).Nodup := normRels_keys_nodup g e hrnd
  have hts : ∀ p ∈ u, p.2.target.isSome := normRels_target_isSome g e
  have hok := groupBy_ok u hund hts
  have hcov := groupBy_covers u
  have hp₀f : p₀ ∈ u.filter (fun p => entryTgt p = t) := by
    rw [hdup]; exact List.mem_cons_self _ _
  have hp₀u : p₀ ∈ u := (List.mem_filter.mp hp₀f).1
  have hp₀t : entryTgt p₀ = t := by
    have := (List.mem_filter.mp hp₀f).2
    exact of_decide_eq_true this
  have hd₀ : dictGet u p₀.1 = some p₀.2 := dictGet_of_mem_nodup hund hp₀u
  have htgt : p₀.2.target = some t := by
    rcases Option.isSome_iff_exists.mp (hts p₀ hp₀u) with ⟨tv, htv⟩
    have he : entryTgt p₀ = tv := by rw [entryTgt, htv]; rfl
    rw [htv, ← hp₀t, he]
  have hgget : dictGet (groupBy u) t = some (p₀.1 :: ps.map (·.1)) := by
    rw [groupBy_get, if_neg (by rw [hdup]; simp), hdup]
    rfl
  have hgrp : (t, p₀.1 :: ps.map (·.1)) ∈ groupBy u := dictGet_mem hgget
  have hie : (ps.map (·.1)).isEmpty = ps.isEmpty := by cases ps <;> rfl
  have hnames : (ps.map (·.1)).map (mergedNameAt u) =
      ps.map (fun q => q.2.name.getD q.1) := by
    rw [List.map_map]
    apply List.map_congr_left
    intro q hq
    have hqf : q ∈ u.filter (fun p => entryTgt p = t) := by
      rw [hdup]; exact List.mem_cons_of_mem _ hq
    have hqu : q ∈ u := (List.mem_filter.mp hqf).1
    have hget := dictGet_of_mem_nodup hund hqu
    show mergedNameAt u q.1 = q.2.name.getD q.1
    unfold mergedNameAt
    rw [hget]
  have hprim := mergeDupRels_primary hok hgrp hd₀
  rw [hie, hnames] at hprim
  have hmerged := mergeDupRels_keys_nodup hok
  have hdm : ((if ps.isEmpty then p₀.2
      else { p₀.2 with aliases := some (p₀.2.aliases.getD [] ++
        ps.map (fun q => q.2.name.getD q.1)) }) : RelData).target = some t := by
    by_cases hpe : ps.isEmpty
    · rw [if_pos hpe]; exact htgt
    · rw [if_neg hpe]; exact htgt
  have hfilter : (mergeDupRels (groupBy u) u).filter
      (fun p => p.2.target = some t) =
      [(p₀.1, if ps.isEmpty then p₀.2
        else { p₀.2 with aliases := some (p₀.2.aliases.getD [] ++
          ps.map (fun q => q.2.name.getD q.1)) })] := by
    apply filter_singleton_of_unique hmerged (dictGet_mem hprim)
    · exact decide_eq_true hdm
    · intro q hq hPq
      exact mergeDupRels_target_key hok hcov hq hgrp (of_decide_eq_true hPq)
  have hfin := vaur_final_entity g hwk hnm hnd hke
  have hchar2 : vaurEntityRels cte e.relations =
      (mergeDupRels (groupBy u) u).map
        (fun p => (p.1, RelDef.newFmt p.2)) :=
    vaurEntityRels_char cte e.relations hrnd
  refine ⟨_, hfin, ?_, ?_, ?_⟩
  · show ((vaurEntityRels cte e.relations).filter
      (fun q => relTarget q.2 = some t)) = _
    have hchar : vaurEntityRels cte e.relations =
        (mergeDupRels (groupBy u) u).map
          (fun p => (p.1, RelDef.newFmt p.2)) :=
      vaurEntityRels_char cte e.relations hrnd
    rw [hchar, List.filter_map]
    have hpc : ((fun q => decide (relTarget q.2 = some t)) ∘
        (fun (p : String × RelData) => (p.1, RelDef.newFmt p.2))) =
        fun (p : String × RelData) => decide (p.2.target = some t) := by
      funext p
      simp [Function.comp, relTarget]
    rw [hpc, hfilter]
    rfl
  · intro q hq
    show dictGet (vaurEntityRels cte e.relations) q.1 = none
    have hchar : vaurEntityRels cte e.relations =
        (mergeDupRels (groupBy u) u).map
          (fun p => (p.1, RelDef.newFmt p.2)) :=
      vaurEntityRels_char cte e.relations hrnd
    rw [hchar, dictGet_map_snd]
    rw [mergeDupRels_tail hok hgrp (List.mem_map.mpr ⟨q, hq, rfl⟩)]
    rfl
  · show dictGet (vaurEntityRels cte e.relations) p₀.1 = _
    rw [hchar2, dictGet_map_snd, hprim]
    rfl

/-- **C7.** For every entity that, after target resolution, has two or
more relation entries resolving to the same target `t` (`p₀ :: ps`, in
encounter order, `ps ≠ []`), `validate_and_update_relations` keeps
exactly one relation entry for that target — the first-encountered one,
under its key `p₀.1` — records the display names of the other entries
in that primary entry's aliases list, and removes the redundant entries
from the entity's relation map. -/
theorem claim_C7 (g : Graph) (hwk : WellKeyed g) (hnm : AllNamed g)
    (hnd : (dictKeys g).Nodup) {k : String} {e : Entity} (hke : (k, e) ∈ g)
    (hrnd : (dictKeys e.relations).Nodup)
    {t : String} {p₀ : String × RelData} {ps : List (String × RelData)}
    (hmulti : ps ≠ [])
    (hdup : (normRels g e).filter (fun p => entryTgt p = t) = p₀ :: ps) :
    ∃ e', dictGet (validateAndUpdateRelations g) k = some e' ∧
      e'.relations.filter (fun q => relTarget q.2 = some t) =
        [(p₀.1, RelDef.newFmt { p₀.2 with aliases := some (p₀.2.aliases.getD [] ++
            ps.map (fun q => q.2.name.getD q.1)) })] ∧
      ∀ q ∈ ps, dictGet e'.relations q.1 = none := by
  have h := vaur_dup_merge g hwk hnm hnd hke hrnd hdup
  rw [if_neg (fun hh => hmulti (List.isEmpty_iff.mp hh))] at h
  obtain ⟨e', h1, h2, h3, _⟩ := h
  exact ⟨e', h1, h2, h3⟩

def c7A : Entity :=
  { name := "A", chinese_name := "甲",
    relations := [
      ("connectsTo",
        RelDef.newFmt { name := some "connectsTo", target := some "Tunnel" }),
      ("linksTo",
        RelDef.newFmt { name := some "linksTo", target := some "Tunnel" })] }

def c7T : Entity := { name := "Tunnel", chinese_name := "隧道" }

def c7Graph : Graph := [("A", c7A), ("Tunnel", c7T)]

def c7P0 : String × RelData :=
  ("connectsTo", { name := some "connectsTo", target := some "Tunnel" })

def c7P1 : String × RelData :=
  ("linksTo", { name := some "linksTo", target := some "Tunnel" })

theorem claim_C7_witness :
    WellKeyed c7Graph ∧ AllNamed c7Graph ∧ (dictKeys c7Graph).Nodup ∧
    ("A", c7A) ∈ c7Graph ∧ (dictKeys c7A.relations).Nodup ∧
    ([c7P1] ≠ ([] : List (String × RelData))) ∧
    (normRels c7Graph c7A).filter (fun p => entryTgt p = "Tunnel") =
      c7P0 :: [c7P1] ∧
    (∃ e', dictGet (validateAndUpdateRelations c7Graph) "A" = some e' ∧
      e'.relations.filter (fun q => relTarget q.2 = some "Tunnel") =
        [(c7P0.1, RelDef.newFmt { c7P0.2 with aliases := some (c7P0.2.aliases.getD [] ++
            [c7P1].map (fun q => q.2.name.getD q.1)) })] ∧
      ∀ q ∈ [c7P1], dictGet e'.relations q.1 = none) :=
  ⟨by decide, by decide, by decide, List.mem_cons_self _ _, by decide,
   by decide, by decide,
   claim_C7 c7Graph (by decide) (by decide) (by decide)
     (List.mem_cons_self _ _) (by decide) (by decide) (by decide)⟩

/-! ## Claim C5: stub registration for unresolved targets -/

theorem normEntry_of_rawTarget {cte : List (String × String)}
    {q : String × RelDef} {t : String} (hraw : rawTarget q.2 = some t)
    (hv : validTargetStr t) (hct : dictGet cte t = none) :
    ∃ d, normEntry cte q = some (q.1, d) ∧ d.target = some t := by
  rcases q with ⟨rk, rd⟩
  cases rd with
  | newFmt d0 =>
    have htd : d0.target = some t := hraw
    refine ⟨{ d0 with target := some (resolveTarget cte t) }, ?_, ?_⟩
    · simp [normEntry, htd, hv]
    · simp [resolveTarget, hct]
  | oldFmt s =>
    have hst : s = t := by injection hraw
    subst hst
    refine ⟨{ name := some rk, target := some (resolveTarget cte s) }, ?_, ?_⟩
    · simp [normEntry, hv]
    · simp [resolveTarget, hct]

/-- An edge whose target does not resolve through the chinese→english
map survives the pass with its target string unchanged. -/
theorem vaur_keeps_unresolved_edge (g : Graph) (hwk : WellKeyed g)
    (hnm : AllNamed g) (hnd : (dictKeys g).Nodup)
    {T : String} (hTv : validTargetStr T)
    (hct : dictGet (buildCte g) T = none)
    {k : String} {e : Entity} (hke : (k, e) ∈ g)
    (hrnd : (dictKeys e.relations).Nodup)
    {rk : String} {rd : RelDef} (hrel : (rk, rd) ∈ e.relations)
    (hraw : rawTarget rd = some T) :
    ∃ e', dictGet (validateAndUpdateRelations g) k = some e' ∧
      ∃ q ∈ e'.relations, relTarget q.2 = some T := by
  rcases normEntry_of_rawTarget (q := (rk, rd)) hraw hTv hct with ⟨d, hn, hdt⟩
  have hmem : ((rk : String), d) ∈ normRels g e :=
    List.mem_filterMap.mpr ⟨(rk, rd), hrel, hn⟩
  have hmemf : ((rk : String), d) ∈
      (normRels g e).filter (fun p => entryTgt p = T) :=
    List.mem_filter.mpr ⟨hmem, by simp [entryTgt, hdt]⟩
  rcases hfe : (normRels g e).filter (fun p => entryTgt p = T) with _ | ⟨p₀, ps⟩
  · rw [hfe] at hmemf
    simp at hmemf
  · rcases vaur_dup_merge g hwk hnm hnd hke hrnd hfe with ⟨e', hge, hfil, _⟩
    refine ⟨e', hge, ?_⟩
    have hx : (p₀.1, RelDef.newFmt (if ps.isEmpty then p₀.2
        else { p₀.2 with aliases := some (p₀.2.aliases.getD [] ++
          ps.map (fun q => q.2.name.getD q.1)) })) ∈
        e'.relations.filter (fun q => relTarget q.2 = some T) := by
      rw [hfil]
      exact List.mem_cons_self _ _
    have hxx := List.mem_filter.mp hx
    exact ⟨_, hxx.1, of_decide_eq_true hxx.2⟩

/-- **C5.** For every relation whose target string `T` matches neither
an existing entity key nor any entity's display name,
`validate_and_update_relations` registers a new entity under `T` as its
key: the stub with OpenSPG kind `EntityType` (an object, not a
concept-scheme type), `auto_created = true`, exactly the mandatory
description/name placeholder properties, and a description noting
automatic creation from the reference — and the source entity keeps a
relation entry pointing at `T`. -/
theorem claim_C5 (g : Graph) (hwk : WellKeyed g) (hnm : AllNamed g)
    (hnd : (dictKeys g).Nodup)
    {T : String} (hTv : validTargetStr T)
    (hTk : T ∉ dictKeys g) (hTc : ∀ p ∈ g, p.2.chinese_name ≠ T)
    {k : String} {e : Entity} (hke : (k, e) ∈ g)
    (hrnd : (dictKeys e.relations).Nodup)
    {rk : String} {rd : RelDef} (hrel : (rk, rd) ∈ e.relations)
    (hraw : rawTarget rd = some T) :
    dictGet (validateAndUpdateRelations g) T = some (mkStub T) ∧
    (mkStub T).openspg_type = "EntityType" ∧
    (mkStub T).auto_created = true ∧
    (mkStub T).properties = [("desc", stdDescProp), ("name", stdNameProp)] ∧
    (mkStub T).description = "自动创建的实体：" ++ T ∧
    ∃ e', dictGet (validateAndUpdateRelations g) k = some e' ∧
      ∃ q ∈ e'.relations, relTarget q.2 = some T := by
  have hcte : dictGet (buildCte g) T = none := by
    cases hc : dictGet (buildCte g) T with
    | none => rfl
    | some v =>
      have hmem := mem_keys_of_dictGet_isSome (by rw [hc]; rfl)
      rcases buildCte_key_is_chinese g T hmem with ⟨p, hp, hpc⟩
      exact absurd hpc (hTc p hp)
  exact ⟨vaur_creates_stub g hwk hTv hTk hTc hke hrel hraw, rfl, rfl,
    rfl, rfl,
    vaur_keeps_unresolved_edge g hwk hnm hnd hTv hcte hke hrnd hrel hraw⟩

def c5A : Entity :=
  { name := "A", chinese_name := "甲",
    relations := [("refersTo",
      RelDef.newFmt { name := some "refersTo", target := some "Unknown123" })] }

def c5Graph : Graph := [("A", c5A)]

theorem claim_C5_witness :
    WellKeyed c5Graph ∧ AllNamed c5Graph ∧ (dictKeys c5Graph).Nodup ∧
    validTargetStr "Unknown123" = true ∧
    "Unknown123" ∉ dictKeys c5Graph ∧
    (∀ p ∈ c5Graph, p.2.chinese_name ≠ "Unknown123") ∧
    ("A", c5A) ∈ c5Graph ∧ (dictKeys c5A.relations).Nodup ∧
    ("refersTo",
      RelDef.newFmt { name := some "refersTo", target := some "Unknown123" })
        ∈ c5A.relations ∧
    rawTarget (RelDef.newFmt
      { name := some "refersTo", target := some "Unknown123" }) =
        some "Unknown123" ∧
    (dictGet (validateAndUpdateRelations c5Graph) "Unknown123" =
        some (mkStub "Unknown123") ∧
      (mkStub "Unknown123").openspg_type = "EntityType" ∧
      (mkStub "Unknown123").auto_created = true ∧
      (mkStub "Unknown123").properties =
        [("desc", stdDescProp), ("name", stdNameProp)] ∧
      (mkStub "Unknown123").description = "自动创建的实体：" ++ "Unknown123" ∧
      ∃ e', dictGet (validateAndUpdateRelations c5Graph) "A" = some e' ∧
        ∃ q ∈ e'.relations, relTarget q.2 = some "Unknown123") :=
  ⟨by decide, by decide, by decide, by decide, by decide, by decide,
   List.mem_cons_self _ _, by decide, List.mem_cons_self _ _, rfl,
   claim_C5 c5Graph (by decide) (by decide) (by decide) (by decide)
     (by decide) (by decide) (List.mem_cons_self _ _) (by decide)
     (List.mem_cons_self _ _) rfl⟩

/-! ## Claim C3 (amended): no repointing, stub recreation instead -/

/-- **C3 (corrected).** When the merge removes a loser key `L` and `L`
does not coincide with any surviving entity's chinese display name, the
next `validate_and_update_relations` pass does **not** repoint
relations that targeted `L` to the survivor: the edge survives with its
target string still `L`, and `L` is recreated in the graph as the
auto-created stub entity. -/
theorem claim_C3 (g : Graph) {L : String}
    (_hL : L ∈ dictKeys g)
    (hLrm : L ∉ dictKeys (mergeAndRemoveDuplicateEntities g))
    (hwk : WellKeyed (mergeAndRemoveDuplicateEntities g))
    (hnm : AllNamed (mergeAndRemoveDuplicateEntities g))
    (hnd : (dictKeys (mergeAndRemoveDuplicateEntities g)).Nodup)
    (hLv : validTargetStr L)
    (hLc : ∀ p ∈ mergeAndRemoveDuplicateEntities g, p.2.chinese_name ≠ L)
    {k : String} {e : Entity}
    (hke : (k, e) ∈ mergeAndRemoveDuplicateEntities g)
    (hrnd : (dictKeys e.relations).Nodup)
    {rk : String} {rd : RelDef} (hrel : (rk, rd) ∈ e.relations)
    (hraw : rawTarget rd = some L) :
    (∃ e', dictGet (mergeValidatePair g) k = some e' ∧
      ∃ q ∈ e'.relations, relTarget q.2 = some L) ∧
    dictGet (mergeValidatePair g) L = some (mkStub L) ∧
    (mkStub L).auto_created = true := by
  have hcte : dictGet (buildCte (mergeAndRemoveDuplicateEntities g)) L =
      none := by
    cases hc : dictGet (buildCte (mergeAndRemoveDuplicateEntities g)) L with
    | none => rfl
    | some v =>
      have hmem := mem_keys_of_dictGet_isSome (by rw [hc]; rfl)
      rcases buildCte_key_is_chinese _ L hmem with ⟨p, hp, hpc⟩
      exact absurd hpc (hLc p hp)
  exact ⟨vaur_keeps_unresolved_edge _ hwk hnm hnd hLv hcte hke hrnd hrel hraw,
    vaur_creates_stub _ hwk hLv hLrm hLc hke hrel hraw, rfl⟩

def c3Road : Entity :=
  { name := "Road", chinese_name := "路",
    relations := [("r", RelDef.newFmt { name := some "r(通)",
                                        target := some "Pumps" })] }

set_option maxRecDepth 8000 in
theorem claim_C3_witness :
    "Pumps" ∈ dictKeys c3Graph ∧
    "Pumps" ∉ dictKeys (mergeAndRemoveDuplicateEntities c3Graph) ∧
    WellKeyed (mergeAndRemoveDuplicateEntities c3Graph) ∧
    AllNamed (mergeAndRemoveDuplicateEntities c3Graph) ∧
    (dictKeys (mergeAndRemoveDuplicateEntities c3Graph)).Nodup ∧
    validTargetStr "Pumps" = true ∧
    (∀ p ∈ mergeAndRemoveDuplicateEntities c3Graph,
      p.2.chinese_name ≠ "Pumps") ∧
    ("Road", c3Road) ∈ mergeAndRemoveDuplicateEntities c3Graph ∧
    (dictKeys c3Road.relations).Nodup ∧
    ("r", RelDef.newFmt { name := some "r(通)", target := some "Pumps" })
      ∈ c3Road.relations ∧
    rawTarget (RelDef.newFmt { name := some "r(通)", target := some "Pumps" }) =
      some "Pumps" ∧
    ((∃ e', dictGet (mergeValidatePair c3Graph) "Road" = some e' ∧
      ∃ q ∈ e'.relations, relTarget q.2 = some "Pumps") ∧
    dictGet (mergeValidatePair c3Graph) "Pumps" = some (mkStub "Pumps") ∧
    (mkStub "Pumps").auto_created = true) :=
  ⟨by decide, by decide, by decide, by decide, by decide, by decide,
   by decide, by decide, by decide, List.mem_cons_self _ _, rfl,
   claim_C3 c3Graph (L := "Pumps") (by decide) (by decide) (by decide)
     (by decide) (by decide) (by decide) (by decide) (k := "Road")
     (e := c3Road) (by decide) (by decide)
     (show ("r", RelDef.newFmt { name := some "r(通)", target := some "Pumps" })
        ∈ c3Road.relations from List.mem_cons_self _ _)
     rfl⟩

/-! ## Claim C4 (amended): edges with usable targets are never dropped -/

/-- The display name of a relation entry (`rel_def.get('name', rel_key)`;
an old-format entry is rebuilt with its key as name). -/
def relDisp (rk : String) : RelDef → String
  | .newFmt d => d.name.getD rk
  | .oldFmt _ => rk

theorem normEntry_resolved {cte : List (String × String)}
    {q : String × RelDef} {t : String} (hraw : rawTarget q.2 = some t)
    (hv : validTargetStr t) :
    ∃ d, normEntry cte q = some (q.1, d) ∧
      d.target = some (resolveTarget cte t) ∧
      d.name.getD q.1 = relDisp q.1 q.2 := by
  rcases q with ⟨rk, rd⟩
  cases rd with
  | newFmt d0 =>
    have htd : d0.target = some t := hraw
    exact ⟨{ d0 with target := some (resolveTarget cte t) },
      by simp [normEntry, htd, hv], rfl, rfl⟩
  | oldFmt s =>
    have hst : s = t := by injection hraw
    subst hst
    exact ⟨{ name := some rk, target := some (resolveTarget cte s) },
      by simp [normEntry, hv], rfl, rfl⟩

/-- **C4 (corrected).** No relation entry with a usable target is
dropped: every entry whose raw target is a non-blank string survives
`validate_and_update_relations` either as a (possibly target-rewritten)
relation entry under its own key, or through its display name being
recorded in the aliases of the surviving entry for the same resolved
target.  (Entries whose target is missing or blank are silently
deleted, as `claim_C4_counterexample` shows.) -/
theorem claim_C4 (g : Graph) (hwk : WellKeyed g) (hnm : AllNamed g)
    (hnd : (dictKeys g).Nodup) {k : String} {e : Entity} (hke : (k, e) ∈ g)
    (hrnd : (dictKeys e.relations).Nodup)
    {rk : String} {rd : RelDef} {t : String}
    (hrel : (rk, rd) ∈ e.relations) (hraw : rawTarget rd = some t)
    (hv : validTargetStr t) :
    ∃ e', dictGet (validateAndUpdateRelations g) k = some e' ∧
      ((∃ d, dictGet e'.relations rk = some (RelDef.newFmt d) ∧
          d.target = some (resolveTarget (buildCte g) t)) ∨
       (∃ pk d, dictGet e'.relations pk = some (RelDef.newFmt d) ∧
          d.target = some (resolveTarget (buildCte g) t) ∧
          relDisp rk rd ∈ d.aliases.getD [])) := by
  set cte := buildCte g with hctedef
  set rt := resolveTarget cte t with hrt
  rcases @normEntry_resolved cte (rk, rd) t hraw hv with
    ⟨d, hn, hdt, hdisp⟩
  have hmem : ((rk : String), d) ∈ normRels g e :=
    List.mem_filterMap.mpr ⟨(rk, rd), hrel, hn⟩
  have hmemf : ((rk : String), d) ∈
      (normRels g e).filter (fun p => entryTgt p = rt) :=
    List.mem_filter.mpr ⟨hmem, by simp [entryTgt, hdt]⟩
  rcases hfe : (normRels g e).filter (fun p => entryTgt p = rt) with
    _ | ⟨p₀, ps⟩
  · rw [hfe] at hmemf
    simp at hmemf
  · rcases vaur_dup_merge g hwk hnm hnd hke hrnd hfe with
      ⟨e', hge, _, _, hprimget⟩
    refine ⟨e', hge, ?_⟩
    have hp₀f : p₀ ∈ (normRels g e).filter (fun p => entryTgt p = rt) := by
      rw [hfe]
      exact List.mem_cons_self _ _
    have hp₀u : p₀ ∈ normRels g e := (List.mem_filter.mp hp₀f).1
    have hp₀t : entryTgt p₀ = rt :=
      of_decide_eq_true (List.mem_filter.mp hp₀f).2
    have htgt : p₀.2.target = some rt := by
      rcases Option.isSome_iff_exists.mp
        (normRels_target_isSome g e p₀ hp₀u) with ⟨tv, htv⟩
      have he2 : entryTgt p₀ = tv := by rw [entryTgt, htv]; rfl
      rw [htv, ← hp₀t, he2]
    have hdmt : ((if ps.isEmpty then p₀.2
        else { p₀.2 with aliases := some (p₀.2.aliases.getD [] ++
          ps.map (fun q => q.2.name.getD q.1)) }) : RelData).target =
        some rt := by
      by_cases hpe : ps.isEmpty
      · rw [if_pos hpe]; exact htgt
      · rw [if_neg hpe]; exact htgt
    rw [hfe] at hmemf
    rcases List.mem_cons.mp hmemf with hhd | htl
    · left
      have hrk : rk = p₀.1 := congrArg Prod.fst hhd
      refine ⟨_, ?_, hdmt⟩
      rw [hrk]
      exact hprimget
    · right
      have hpe : ps.isEmpty = false := by
        cases ps with
        | nil => simp at htl
        | cons a l => rfl
      rw [hpe] at hprimget hdmt
      simp only [if_neg Bool.false_ne_true] at hprimget hdmt
      refine ⟨p₀.1, _, hprimget, hdmt, ?_⟩
      show relDisp rk rd ∈ (some (p₀.2.aliases.getD [] ++
        ps.map (fun q => q.2.name.getD q.1))).getD []
      rw [Option.getD_some]
      exact List.mem_append_right _ (List.mem_map.mpr ⟨(rk, d), htl, hdisp⟩)

def c4WA : Entity :=
  { name := "A", chinese_name := "甲",
    relations := [("r", RelDef.newFmt { name := some "r", target := some "B" })] }

def c4WGraph : Graph :=
  [("A", c4WA), ("B", { name := "B", chinese_name := "乙" })]

theorem claim_C4_witness :
    WellKeyed c4WGraph ∧ AllNamed c4WGraph ∧ (dictKeys c4WGraph).Nodup ∧
    ("A", c4WA) ∈ c4WGraph ∧ (dictKeys c4WA.relations).Nodup ∧
    ("r", RelDef.newFmt { name := some "r", target := some "B" })
      ∈ c4WA.relations ∧
    rawTarget (RelDef.newFmt { name := some "r", target := some "B" }) =
      some "B" ∧
    validTargetStr "B" = true ∧
    (∃ e', dictGet (validateAndUpdateRelations c4WGraph) "A" = some e' ∧
      ((∃ d, dictGet e'.relations "r" = some (RelDef.newFmt d) ∧
          d.target = some (resolveTarget (buildCte c4WGraph) "B")) ∨
       (∃ pk d, dictGet e'.relations pk = some (RelDef.newFmt d) ∧
          d.target = some (resolveTarget (buildCte c4WGraph) "B") ∧
          relDisp "r" (RelDef.newFmt { name := some "r", target := some "B" })
            ∈ d.aliases.getD []))) :=
  ⟨by decide, by decide, by decide, List.mem_cons_self _ _, by decide,
   List.mem_cons_self _ _, rfl, by decide,
   claim_C4 c4WGraph (by decide) (by decide) (by decide)
     (List.mem_cons_self _ _) (by decide)
     (show ("r", RelDef.newFmt { name := some "r", target := some "B" })
        ∈ c4WA.relations from List.mem_cons_self _ _)
     rfl (by decide)⟩

/-! ## Claim C2 (amended): a no-op pass from canonical states -/

/-- One relation entry is canonical for graph `g`: dict format, with a
non-blank target that resolves to no chinese display name and is a
known english name. -/
def canonEntryB (g : Graph) (q : String × RelDef) : Bool :=
  match q.2 with
  | .newFmt d =>
    match d.target with
    | some t => validTargetStr t && (dictGet (buildCte g) t).isNone &&
        decide (t ∈ buildEnglish g)
    | none => false
  | .oldFmt _ => false

/-- An entity's relations are canonical: every entry canonical, keys
distinct, targets pairwise distinct. -/
def CanonRels (g : Graph) (e : Entity) : Prop :=
  e.relations.all (canonEntryB g) = true ∧
  (dictKeys e.relations).Nodup ∧
  (e.relations.filterMap (fun q => rawTarget q.2)).Nodup

instance (g : Graph) (e : Entity) : Decidable (CanonRels g e) := by
  unfold CanonRels
  infer_instance

theorem canonEntryB_spec {g : Graph} {q : String × RelDef}
    (h : canonEntryB g q = true) :
    ∃ d t, q.2 = RelDef.newFmt d ∧ d.target = some t ∧
      validTargetStr t = true ∧ dictGet (buildCte g) t = none ∧
      t ∈ buildEnglish g := by
  rcases q with ⟨rk, rd⟩
  cases rd with
  | newFmt d =>
    cases htd : d.target with
    | none => simp [canonEntryB, htd] at h
    | some t =>
      simp only [canonEntryB, htd, Bool.and_eq_true, decide_eq_true_eq,
        Option.isNone_iff_eq_none] at h
      exact ⟨d, t, rfl, htd, h.1.1, h.1.2, h.2⟩
  | oldFmt s => simp [canonEntryB] at h

/-- The relation value a canonical dict entry re-contributes. -/
def relDataOf : RelDef → RelData
  | .newFmt d => d
  | .oldFmt s => { name := none, target := some s }

theorem mergeDupRels_singletons :
    ∀ (gs : List (String × List String)) (u : List (String × RelData)),
      (∀ gp ∈ gs, ∃ x, gp.2 = [x]) → mergeDupRels gs u = u := by
  intro gs
  induction gs with
  | nil => intro u _; rfl
  | cons gp gs ih =>
    intro u hs
    obtain ⟨x, hx⟩ := hs gp (List.mem_cons_self _ _)
    have h1 : mergeDupRels (gp :: gs) u =
        mergeDupRels gs (mergeGroup u gp) := rfl
    have h2 : mergeGroup u gp = u := by
      unfold mergeGroup
      rw [hx]
    rw [h1, h2, ih u (fun gp' h => hs gp' (List.mem_cons_of_mem _ h))]

/-- Folding the relation loop over canonical entries changes nothing in
the threaded state and reproduces the entries verbatim. -/
theorem foldl_processRel_canon (cte : List (String × String)) :
    ∀ (l : List (String × RelDef)) (r : RState),
      (∀ q ∈ l, ∃ d t, q.2 = RelDef.newFmt d ∧ d.target = some t ∧
        validTargetStr t = true ∧ dictGet cte t = none ∧ t ∈ r.english) →
      (dictKeys r.updated ++ l.map (·.1)).Nodup →
      (dictKeys r.ttr ++ l.filterMap (fun q => rawTarget q.2)).Nodup →
      (l.foldl (processRel cte) r).entities = r.entities ∧
      (l.foldl (processRel cte) r).english = r.english ∧
      (l.foldl (processRel cte) r).entityUpdated = r.entityUpdated ∧
      (l.foldl (processRel cte) r).updated =
        r.updated ++ l.map (fun q => (q.1, relDataOf q.2)) ∧
      (l.foldl (processRel cte) r).ttr =
        r.ttr ++ l.map (fun q => ((rawTarget q.2).getD "", [q.1])) := by
  intro l
  induction l with
  | nil => intro r _ _ _; simp
  | cons q l ih =>
    intro r hcan hkeys httr
    obtain ⟨d, t, hq2, hdt, hv, hct, hmem⟩ := hcan q (List.mem_cons_self _ _)
    rcases q with ⟨rk, rd⟩
    have hq2' : rd = RelDef.newFmt d := hq2
    subst hq2'
    have hstep : processRel cte r (rk, RelDef.newFmt d) =
        { r with updated := dictInsert r.updated rk d,
                 ttr := ttrAdd r.ttr t rk } := by
      simp [processRel, hdt, hv, hct, hmem]
    have hkd : rk ∉ dictKeys r.updated := by
      intro hin
      exact (List.disjoint_of_nodup_append hkeys) hin
        (List.mem_cons_self _ _)
    have hfm : ((rk, RelDef.newFmt d) :: l).filterMap
        (fun q => rawTarget q.2) = t :: l.filterMap (fun q => rawTarget q.2) := by
      simp [List.filterMap_cons, rawTarget, hdt]
    have htd' : t ∉ dictKeys r.ttr := by
      intro hin
      rw [hfm] at httr
      exact (List.disjoint_of_nodup_append httr) hin (List.mem_cons_self _ _)
    have hgt : dictGet r.ttr t = none := by
      cases hg : dictGet r.ttr t with
      | none => rfl
      | some v =>
        exact absurd (mem_keys_of_dictGet_isSome (by rw [hg]; rfl)) htd'
    have hins : dictInsert r.updated rk d = r.updated ++ [(rk, d)] :=
      dictInsert_eq_append d hkd
    have httradd : ttrAdd r.ttr t rk = r.ttr ++ [(t, [rk])] := by
      unfold ttrAdd
      rw [hgt]
    have hfoldeq : ((rk, RelDef.newFmt d) :: l).foldl (processRel cte) r =
        l.foldl (processRel cte)
          { r with updated := r.updated ++ [(rk, d)],
                   ttr := r.ttr ++ [(t, [rk])] } := by
      show (l.foldl (processRel cte) (processRel cte r (rk, RelDef.newFmt d))) = _
      rw [hstep, hins, httradd]
    have hih := ih { r with updated := r.updated ++ [(rk, d)],
                            ttr := r.ttr ++ [(t, [rk])] }
      (fun q' hq' => hcan q' (List.mem_cons_of_mem _ hq'))
      (by
        show (dictKeys (r.updated ++ [(rk, d)]) ++ l.map (·.1)).Nodup
        have hkk : dictKeys (r.updated ++ [(rk, d)]) =
            dictKeys r.updated ++ [rk] := by
          simp [dictKeys]
        rw [hkk, List.append_assoc]
        exact hkeys)
      (by
        show (dictKeys (r.ttr ++ [(t, [rk])]) ++
          l.filterMap (fun q => rawTarget q.2)).Nodup
        have hkk : dictKeys (r.ttr ++ [(t, [rk])]) =
            dictKeys r.ttr ++ [t] := by
          simp [dictKeys]
        rw [hkk, List.append_assoc]
        rw [hfm] at httr
        exact httr)
    rw [hfoldeq]
    refine ⟨hih.1, hih.2.1, hih.2.2.1, ?_, ?_⟩
    · rw [hih.2.2.2.1]
      simp [List.append_assoc, relDataOf]
    · rw [hih.2.2.2.2]
      simp [List.append_assoc, rawTarget, hdt]

/-- On the canonical fragment, one entity step of the pass is the
identity on the threaded state. -/
theorem vaurStep_canon (g : Graph) (a : String × Entity)
    (hc : CanonRels g a.2) :
    vaurStep (buildCte g) { entities := g, english := buildEnglish g } a =
      { entities := g, english := buildEnglish g } := by
  unfold vaurStep
  by_cases hemp : a.2.relations.isEmpty
  · rw [if_pos hemp]
  · rw [if_neg hemp]
    obtain ⟨hall, hknd, htnd⟩ := hc
    have hcan : ∀ q ∈ a.2.relations, ∃ d t, q.2 = RelDef.newFmt d ∧
        d.target = some t ∧ validTargetStr t = true ∧
        dictGet (buildCte g) t = none ∧ t ∈ buildEnglish g := by
      intro q hq
      exact canonEntryB_spec (List.all_eq_true.mp hall q hq)
    have hfold := foldl_processRel_canon (buildCte g) a.2.relations
      { updated := [], ttr := [], entityUpdated := false,
        entities := g, english := buildEnglish g }
      hcan hknd htnd
    obtain ⟨hent, heng, hupdf, hupd, httrf⟩ := hfold
    have hrels : vaurRelsOut (vaurInner (buildCte g)
        { entities := g, english := buildEnglish g } a.2) =
        a.2.relations := by
      unfold vaurRelsOut vaurInner
      rw [hupd, httrf]
      rw [List.nil_append, List.nil_append]
      rw [mergeDupRels_singletons _ _ ?_]
      · rw [List.map_map]
        apply List.map_congr_left ?_ |>.trans (List.map_id _)
        intro q hq
        obtain ⟨d, t, hq2, _⟩ := hcan q hq
        show (q.1, RelDef.newFmt (relDataOf q.2)) = q
        rw [hq2]
        rw [show RelDef.newFmt (relDataOf (RelDef.newFmt d)) =
          RelDef.newFmt d from rfl, ← hq2]
      · intro gp hgp
        rcases List.mem_map.mp hgp with ⟨q, _, hq⟩
        exact ⟨q.1, by rw [← hq]⟩
    have hcond : vaurCond (vaurInner (buildCte g)
        { entities := g, english := buildEnglish g } a.2) a.2 = false := by
      unfold vaurCond
      rw [hrels]
      have h1 : (vaurInner (buildCte g)
          { entities := g, english := buildEnglish g } a.2).entityUpdated =
          false := by
        unfold vaurInner
        exact hupdf
      have h2 : (vaurInner (buildCte g)
          { entities := g, english := buildEnglish g } a.2).ttr.any
          (fun p => 1 < p.2.length) = false := by
        unfold vaurInner
        rw [httrf, List.nil_append, List.any_eq_false]
        intro p hp
        rcases List.mem_map.mp hp with ⟨q, _, hq⟩
        rw [← hq]
        simp
      rw [h1, h2]
      simp
    rw [if_neg (by rw [hcond]; exact Bool.false_ne_true)]
    have he1 : (vaurInner (buildCte g)
        { entities := g, english := buildEnglish g } a.2).entities = g := by
      unfold vaurInner
      exact hent
    have he2 : (vaurInner (buildCte g)
        { entities := g, english := buildEnglish g } a.2).english =
        buildEnglish g := by
      unfold vaurInner
      exact heng
    rw [he1, he2]

/-- **C2 (amended).** The merge+validate pair is not idempotent in
general (`claim_C2_counterexample`), but from an already-consistent
state it is a no-op, hence idempotent: if the duplicate detector finds
no group and every entity's relations are canonical (dict format,
non-blank target that is a live english name, no chinese-name
collision, pairwise-distinct targets and keys), one pair run returns
the graph unchanged, so a second run changes nothing either. -/
theorem claim_C2 (g : Graph) (hgs : groupSimilarEntities g = [])
    (hcan : ∀ p ∈ g, CanonRels g p.2) :
    mergeValidatePair g = g ∧
    mergeValidatePair (mergeValidatePair g) = mergeValidatePair g := by
  have hmg : mergeAndRemoveDuplicateEntities g = g := by
    unfold mergeAndRemoveDuplicateEntities
    rw [hgs]
    rfl
  have hv : validateAndUpdateRelations g = g := by
    have hfold : g.foldl (vaurStep (buildCte g))
        { entities := g, english := buildEnglish g } =
        { entities := g, english := buildEnglish g } := by
      apply foldl_induction_mem g (vaurStep (buildCte g))
        (fun st => st = { entities := g, english := buildEnglish g })
      · intro st a ha hst
        rw [hst]
        exact vaurStep_canon g a (hcan a ha)
      · rfl
    show (g.foldl (vaurStep (buildCte g))
      { entities := g, english := buildEnglish g }).entities = g
    rw [hfold]
  have h1 : mergeValidatePair g = g := by
    unfold mergeValidatePair
    rw [hmg, hv]
  refine ⟨h1, ?_⟩
  rw [h1]
  exact h1

def c2WA : Entity :=
  { name := "Alpha", chinese_name := "一",
    relations := [("r",
      RelDef.newFmt { name := some "r", target := some "Omega" })] }

def c2WB : Entity := { name := "Omega", chinese_name := "二" }

def c2WGraph : Graph := [("Alpha", c2WA), ("Omega", c2WB)]

set_option maxRecDepth 8000 in
theorem claim_C2_witness :
    groupSimilarEntities c2WGraph = [] ∧
    (∀ p ∈ c2WGraph, CanonRels c2WGraph p.2) ∧
    (mergeValidatePair c2WGraph = c2WGraph ∧
     mergeValidatePair (mergeValidatePair c2WGraph) =
       mergeValidatePair c2WGraph) :=
  ⟨by decide, by decide, claim_C2 c2WGraph (by decide) (by decide)⟩

/-! ## Claim C9: dependency order of the generated schema -/

/-- One edge of the dependency graph: `u` depends on `v`. -/
def depStep (dm : List (String × List String)) (u v : String) : Prop :=
  v ∈ depsOf dm u

/-- `d` occurs strictly before `x` in the list `l`. -/
def Before (l : List String) (d x : String) : Prop :=
  ∃ l₁ l₂ l₃, l = l₁ ++ d :: (l₂ ++ x :: l₃)

theorem Before_append {l : List String} {d x : String} (m : List String)
    (h : Before l d x) : Before (l ++ m) d x := by
  obtain ⟨l₁, l₂, l₃, hl⟩ := h
  exact ⟨l₁, l₂, l₃ ++ m, by rw [hl]; simp⟩

theorem Before_mk {v : List String} {d : String} (x : String) (h : d ∈ v) :
    Before (v ++ [x]) d x := by
  obtain ⟨s, t, hst⟩ := List.append_of_mem h
  exact ⟨s, t, [], by rw [hst]; simp⟩

theorem nodup_subset_length {l l' : List String} (h : l.Nodup)
    (hs : l ⊆ l') : l.length ≤ l'.length := by
  have h1 : l.toFinset.card = l.length := List.toFinset_card_of_nodup h
  have h2 : l.toFinset ⊆ l'.toFinset := by
    intro x hx
    simp only [List.mem_toFinset] at hx ⊢
    exact hs hx
  have h3 := Finset.card_le_card h2
  have h4 : l'.toFinset.card ≤ l'.length := l'.toFinset_card_le
  omega

/-- Every recorded dependency target is a mapped key distinct from the
owner (the construction only adds `pt ∈ entity_map ∧ pt ≠ name`). -/
theorem depsFor_spec (em : Graph) (e : Entity) :
    ∀ d ∈ depsFor em e, (dictGet em d).isSome = true ∧ d ≠ e.name := by
  have hbase : ∀ d ∈ e.properties.foldl
      (fun acc p =>
        match p.2 with
        | .pdict pf =>
          let pt := pf.type.getD ""
          if (dictGet em pt).isSome ∧ pt ≠ e.name then listInsert acc pt
          else acc
        | .pstr _ => acc)
      [], (dictGet em d).isSome = true ∧ d ≠ e.name := by
    apply foldl_induction _
      (fun acc => ∀ d ∈ acc, (dictGet em d).isSome = true ∧ d ≠ e.name)
    · intro acc p hacc d hd
      rcases p with ⟨pk, pv⟩
      cases pv with
      | pdict pf =>
        simp only at hd
        by_cases hc : (dictGet em (pf.type.getD "")).isSome = true ∧
            pf.type.getD "" ≠ e.name
        · rw [if_pos hc] at hd
          rcases mem_of_mem_listInsert hd with h' | h'
          · exact hacc d h'
          · exact h' ▸ ⟨hc.1, hc.2⟩
        · rw [if_neg hc] at hd
          exact hacc d hd
      | pstr s => exact hacc d hd
    · intro d hd
      simp at hd
  show ∀ d ∈ e.relations.foldl _ _, _
  apply foldl_induction _
    (fun acc => ∀ d ∈ acc, (dictGet em d).isSome = true ∧ d ≠ e.name)
  · intro acc q hacc d hd
    rcases q with ⟨qk, qv⟩
    cases qv with
    | newFmt rd =>
      simp only at hd
      by_cases hc : (dictGet em (rd.target.getD "")).isSome = true ∧
          rd.target.getD "" ≠ e.name
      · rw [if_pos hc] at hd
        rcases mem_of_mem_listInsert hd with h' | h'
        · exact hacc d h'
        · exact h' ▸ ⟨hc.1, hc.2⟩
      · rw [if_neg hc] at hd
        exact hacc d hd
    | oldFmt s => exact hacc d hd
  · exact hbase

theorem buildDeps_entries (es : List Entity) (em : Graph) :
    ∀ p ∈ buildDeps es em, ∃ e ∈ es, p = (e.name, depsFor em e) := by
  unfold buildDeps
  apply foldl_induction_mem es _
    (fun dm => ∀ p ∈ dm, ∃ e ∈ es, p = (e.name, depsFor em e))
  · intro dm e he hdm p hp
    rcases mem_dictInsert hp with h' | h'
    · exact hdm p h'
    · exact ⟨e, he, h'⟩
  · intro p hp
    simp at hp

theorem depsOf_spec (es : List Entity) (em : Graph) :
    ∀ x d, d ∈ depsOf (buildDeps es em) x →
      (dictGet em d).isSome = true ∧ d ≠ x := by
  intro x d hd
  unfold depsOf at hd
  cases hg : dictGet (buildDeps es em) x with
  | none => rw [hg] at hd; simp at hd
  | some deps =>
    rw [hg] at hd
    simp only [Option.getD_some] at hd
    rcases buildDeps_entries es em (x, deps) (dictGet_mem hg) with ⟨e, _, hpe⟩
    have hx : x = e.name := congrArg Prod.fst hpe
    have hdeps : deps = depsFor em e := congrArg Prod.snd hpe
    rw [hdeps] at hd
    rcases depsFor_spec em e d hd with ⟨h1, h2⟩
    exact ⟨h1, hx ▸ h2⟩

/-- Invariant of the DFS state: the order list is the visited list
restricted to mapped keys, and every dependency of a visited key either
reaches back to it (a cycle) or was visited strictly earlier. -/
def DfsGood (em : Graph) (dm : List (String × List String))
    (st : DfsSt) : Prop :=
  st.order = st.visited.filter (fun k => (dictGet em k).isSome) ∧
  ∀ x ∈ st.visited, ∀ d ∈ depsOf dm x,
    Relation.ReflTransGen (depStep dm) d x ∨ Before st.visited d x

/-- One iteration of the dependency loop inside `dfs`. -/
def dfsStep (em : Graph) (dm : List (String × List String)) (fuel : Nat)
    (s : DfsSt) (d : String) : DfsSt :=
  if (dictGet em d).isSome then dfs em dm fuel s d else s

/-- Full specification of one (fuelled) `dfs` call: it preserves the
invariant and the stack, only appends to `visited`, and afterwards the
argument is visited unless it was on the stack. -/
theorem dfs_spec (em : Graph) (dm : List (String × List String))
    (Hne : ∀ x d, d ∈ depsOf dm x → d ≠ x)
    (Hsome : ∀ x d, d ∈ depsOf dm x → (dictGet em d).isSome = true) :
    ∀ (fuel : Nat) (st : DfsSt) (x : String),
      DfsGood em dm st →
      (∀ z ∈ st.temp, Relation.ReflTransGen (depStep dm) z x) →
      st.temp.Nodup →
      (∀ z ∈ st.temp, z ∈ dictKeys em) →
      x ∈ dictKeys em →
      em.length + 2 ≤ fuel + st.temp.length →
      DfsGood em dm (dfs em dm fuel st x) ∧
      (dfs em dm fuel st x).temp = st.temp ∧
      (∃ m, (dfs em dm fuel st x).visited = st.visited ++ m) ∧
      (x ∈ (dfs em dm fuel st x).visited ∨ x ∈ st.temp) := by
  intro fuel
  induction fuel with
  | zero =>
    intro st x hg htr hnd hsub hx hf
    exfalso
    have hlen : st.temp.length ≤ (dictKeys em).length :=
      nodup_subset_length hnd hsub
    have hkeys : (dictKeys em).length = em.length := by
      simp [dictKeys]
    omega
  | succ fuel ih =>
    intro st x hg htr hnd hsub hx hf
    by_cases h1 : x ∈ st.temp
    · have hdfs : dfs em dm (fuel + 1) st x = st := by
        unfold dfs
        rw [if_pos h1]
      rw [hdfs]
      exact ⟨hg, rfl, ⟨[], by simp⟩, Or.inr h1⟩
    · by_cases h2 : x ∈ st.visited
      · have hdfs : dfs em dm (fuel + 1) st x = st := by
          unfold dfs
          rw [if_neg h1, if_pos h2]
        rw [hdfs]
        exact ⟨hg, rfl, ⟨[], by simp⟩, Or.inl h2⟩
      · have hxsome : (dictGet em x).isSome = true :=
          dictGet_isSome_of_mem_keys hx
        have hnd1 : (st.temp ++ [x]).Nodup := by
          rw [List.nodup_append]
          exact ⟨hnd, List.nodup_singleton x,
            by intro z hz hz'; simp at hz'; exact h1 (hz' ▸ hz)⟩
        have hsub1 : ∀ z ∈ st.temp ++ [x], z ∈ dictKeys em := by
          intro z hz
          rcases List.mem_append.mp hz with h' | h'
          · exact hsub z h'
          · simp at h'
            exact h' ▸ hx
        have hlen1 : em.length + 2 ≤ fuel + (st.temp ++ [x]).length := by
          rw [List.length_append, List.length_singleton]
          omega
        have hfold :
            ∀ ds : List String, (∀ d ∈ ds, d ∈ depsOf dm x) →
              ∀ s, DfsGood em dm s → s.temp = st.temp ++ [x] →
              DfsGood em dm (ds.foldl (dfsStep em dm fuel) s) ∧
              (ds.foldl (dfsStep em dm fuel) s).temp = s.temp ∧
              (∃ m, (ds.foldl (dfsStep em dm fuel) s).visited =
                s.visited ++ m) ∧
              (∀ d ∈ ds, (dictGet em d).isSome = true →
                (d ∈ (ds.foldl (dfsStep em dm fuel) s).visited ∨
                 d ∈ st.temp ++ [x])) := by
          intro ds
          induction ds with
          | nil =>
            intro _ s hgs hts
            exact ⟨hgs, rfl, ⟨[], by simp⟩, by intro d hd; simp at hd⟩
          | cons d ds ihds =>
            intro hdss s hgs hts
            have hdx : d ∈ depsOf dm x := hdss d (List.mem_cons_self _ _)
            have hstep0 : (d :: ds).foldl (dfsStep em dm fuel) s =
                ds.foldl (dfsStep em dm fuel) (dfsStep em dm fuel s d) := rfl
            by_cases hds : (dictGet em d).isSome = true
            · have hone : dfsStep em dm fuel s d = dfs em dm fuel s d := by
                unfold dfsStep
                rw [if_pos hds]
              have hcall := ih s d hgs
                (by
                  intro z hz
                  rw [hts] at hz
                  rcases List.mem_append.mp hz with h' | h'
                  · exact (htr z h').tail hdx
                  · simp at h'
                    subst h'
                    exact Relation.ReflTransGen.single hdx)
                (by rw [hts]; exact hnd1)
                (by rw [hts]; exact hsub1)
                (mem_keys_of_dictGet_isSome hds)
                (by rw [hts]; exact hlen1)
              obtain ⟨hg2, ht2, ⟨m2, hv2⟩, hcomp2⟩ := hcall
              have hrest := ihds
                (fun d' hd' => hdss d' (List.mem_cons_of_mem _ hd'))
                (dfs em dm fuel s d) hg2 (by rw [ht2, hts])
              obtain ⟨hg3, ht3, ⟨m3, hv3⟩, hcomp3⟩ := hrest
              rw [hstep0, hone]
              refine ⟨hg3, by rw [ht3, ht2], ⟨m2 ++ m3, by
                rw [hv3, hv2, List.append_assoc]⟩, ?_⟩
              intro d' hd' hd's
              rcases List.mem_cons.mp hd' with h' | h'
              · subst h'
                rcases hcomp2 with hc | hc
                · left
                  rw [hv3]
                  exact List.mem_append_left _ hc
                · right
                  rw [← hts]
                  exact hc
              · exact hcomp3 d' h' hd's
            · have hone : dfsStep em dm fuel s d = s := by
                unfold dfsStep
                rw [if_neg hds]
              have hrest := ihds
                (fun d' hd' => hdss d' (List.mem_cons_of_mem _ hd'))
                s hgs hts
              obtain ⟨hg3, ht3, hm3, hcomp3⟩ := hrest
              rw [hstep0, hone]
              refine ⟨hg3, ht3, hm3, ?_⟩
              intro d' hd' hd's
              rcases List.mem_cons.mp hd' with h' | h'
              · subst h'
                exact absurd hd's hds
              · exact hcomp3 d' h' hd's
        have hg1 : DfsGood em dm { st with temp := st.temp ++ [x] } := hg
        have hmain := hfold (depsOf dm x) (fun d hd => hd)
          { st with temp := st.temp ++ [x] } hg1 rfl
        obtain ⟨hg2, ht2, ⟨m2, hv2⟩, hcomp⟩ := hmain
        have hdfs : dfs em dm (fuel + 1) st x =
            { visited := ((depsOf dm x).foldl (dfsStep em dm fuel)
                { st with temp := st.temp ++ [x] }).visited ++ [x],
              temp := ((depsOf dm x).foldl (dfsStep em dm fuel)
                { st with temp := st.temp ++ [x] }).temp.erase x,
              order := if (dictGet em x).isSome then
                ((depsOf dm x).foldl (dfsStep em dm fuel)
                  { st with temp := st.temp ++ [x] }).order ++ [x]
                else ((depsOf dm x).foldl (dfsStep em dm fuel)
                  { st with temp := st.temp ++ [x] }).order } := by
          unfold dfs
          rw [if_neg h1, if_neg h2]
          rfl
        rw [hdfs]
        have hterase : (((depsOf dm x).foldl (dfsStep em dm fuel)
            { st with temp := st.temp ++ [x] }).temp).erase x = st.temp := by
          rw [ht2]
          show (st.temp ++ [x]).erase x = st.temp
          rw [List.erase_append_right _ h1, List.erase_cons_head,
            List.append_nil]
        refine ⟨⟨?_, ?_⟩, hterase, ⟨m2 ++ [x], by
          rw [hv2]
          show (st.visited ++ m2) ++ [x] = st.visited ++ (m2 ++ [x])
          rw [List.append_assoc]⟩, Or.inl (by
            exact List.mem_append_right _ (List.mem_singleton.mpr rfl))⟩
        · show (if (dictGet em x).isSome then _ else _) = _
          rw [if_pos hxsome, hg2.1, List.filter_append]
          simp [hxsome]
        · intro y hy d hd
          rcases List.mem_append.mp hy with hy' | hy'
          · rcases hg2.2 y hy' d hd with h' | h'
            · exact Or.inl h'
            · exact Or.inr (Before_append [x] h')
          · simp at hy'
            subst hy'
            have hds := Hsome y d hd
            rcases hcomp d hd hds with hc | hc
            · exact Or.inr (Before_mk y hc)
            · rcases List.mem_append.mp hc with hc' | hc'
              · exact Or.inl (htr d hc')
              · simp at hc'
                exact absurd hc' (Hne y d hd)

/-- The root loop of the sort visits every mapped key with the
invariant intact. -/
theorem roots_spec (em : Graph) (dm : List (String × List String))
    (Hne : ∀ x d, d ∈ depsOf dm x → d ≠ x)
    (Hsome : ∀ x d, d ∈ depsOf dm x → (dictGet em d).isSome = true) :
    DfsGood em dm ((dictKeys em).foldl
      (fun st k => if k ∈ st.visited then st
        else dfs em dm (em.length + 2) st k) {}) ∧
    ∀ k ∈ dictKeys em, k ∈ ((dictKeys em).foldl
      (fun st k => if k ∈ st.visited then st
        else dfs em dm (em.length + 2) st k) {}).visited := by
  have hfold := foldl_rest_induction
    (fun st k => if k ∈ st.visited then st
      else dfs em dm (em.length + 2) st k)
    (fun st rrest =>
      DfsGood em dm st ∧ st.temp = [] ∧
      (∀ k', k' ∈ rrest → k' ∈ dictKeys em) ∧
      (∀ k ∈ dictKeys em, k ∈ st.visited ∨ k ∈ rrest))
    ?_ (dictKeys em) {} ?_
  · obtain ⟨hg, _, _, hcov⟩ := hfold
    refine ⟨hg, ?_⟩
    intro k hk
    rcases hcov k hk with h' | h'
    · exact h'
    · simp at h'
  · intro st a rest hst
    dsimp only
    obtain ⟨hg, htemp, hsubk, hcov⟩ := hst
    have ha : a ∈ dictKeys em := hsubk a (List.mem_cons_self _ _)
    by_cases hv : a ∈ st.visited
    · rw [if_pos hv]
      refine ⟨hg, htemp,
        fun k' hk' => hsubk k' (List.mem_cons_of_mem _ hk'), ?_⟩
      intro k hk
      rcases hcov k hk with h' | h'
      · exact Or.inl h'
      · rcases List.mem_cons.mp h' with h'' | h''
        · exact Or.inl (h'' ▸ hv)
        · exact Or.inr h''
    · rw [if_neg hv]
      have hcall := dfs_spec em dm Hne Hsome (em.length + 2) st a hg
        (by rw [htemp]; intro z hz; simp at hz)
        (by rw [htemp]; exact List.nodup_nil)
        (by rw [htemp]; intro z hz; simp at hz)
        ha
        (by rw [htemp]; simp)
      obtain ⟨hg', ht', ⟨m, hvm⟩, hcomp⟩ := hcall
      refine ⟨hg', by rw [ht']; exact htemp,
        fun k' hk' => hsubk k' (List.mem_cons_of_mem _ hk'), ?_⟩
      intro k hk
      rcases hcov k hk with h' | h'
      · exact Or.inl (by rw [hvm]; exact List.mem_append_left _ h')
      · rcases List.mem_cons.mp h' with h'' | h''
        · subst h''
          rcases hcomp with hc | hc
          · exact Or.inl hc
          · rw [htemp] at hc
            simp at hc
        · exact Or.inr h''
  · refine ⟨⟨rfl, ?_⟩, rfl, fun k' hk' => hk', fun k hk => Or.inr hk⟩
    intro x hx
    simp at hx

/-- **C9.** For all entities `A` (key `a`) and `B` (key `b`) of the
input of `generate_complete_schema`: if `A` depends on `B` in the
constructed dependency graph (`B`'s key appears as a property's type or
a relation's target on `A`, with `B` mapped), and no dependency cycle
involves both (`B` does not transitively depend back on `A`), then `B`'s
entity is serialized strictly before `A`'s in the dependency-sorted
entity list the schema text is generated from. -/
theorem claim_C9 (es : List Entity) {a b : String}
    (ha : a ∈ dictKeys (buildEntityMap es))
    (hdep : b ∈ depsOf (buildDeps es (buildEntityMap es)) a)
    (hnc : ¬ Relation.ReflTransGen
      (depStep (buildDeps es (buildEntityMap es))) b a) :
    ∃ l₁ l₂ l₃ eb ea,
      sortEntitiesByDependency es = l₁ ++ eb :: (l₂ ++ ea :: l₃) ∧
      dictGet (buildEntityMap es) b = some eb ∧
      dictGet (buildEntityMap es) a = some ea := by
  set em := buildEntityMap es with hem
  set dm := buildDeps es em with hdm
  have Hne : ∀ x d, d ∈ depsOf dm x → d ≠ x :=
    fun x d hd => (depsOf_spec es em x d hd).2
  have Hsome : ∀ x d, d ∈ depsOf dm x → (dictGet em d).isSome = true :=
    fun x d hd => (depsOf_spec es em x d hd).1
  obtain ⟨hgood, hcov⟩ := roots_spec em dm Hne Hsome
  set F := (dictKeys em).foldl
    (fun st k => if k ∈ st.visited then st
      else dfs em dm (em.length + 2) st k) {} with hFdef
  have haF : a ∈ F.visited := hcov a ha
  have hbs : (dictGet em b).isSome = true := Hsome a b hdep
  have has : (dictGet em a).isSome = true := dictGet_isSome_of_mem_keys ha
  rcases hgood.2 a haF b hdep with hr | hbf
  · exact absurd hr hnc
  · obtain ⟨v₁, v₂, v₃, hv⟩ := hbf
    have hfo : F.order =
        (v₁.filter (fun k => (dictGet em k).isSome)) ++ b ::
        ((v₂.filter (fun k => (dictGet em k).isSome)) ++ a ::
         (v₃.filter (fun k => (dictGet em k).isSome))) := by
      rw [hgood.1, hv]
      simp [List.filter_append, List.filter_cons, hbs, has]
    have hso : sortOrder es = F.order := rfl
    obtain ⟨eb, heb⟩ := Option.isSome_iff_exists.mp hbs
    obtain ⟨ea, hea⟩ := Option.isSome_iff_exists.mp has
    have hfm : sortEntitiesByDependency es =
        (F.order).filterMap (fun k => dictGet em k) := by
      rw [← hso]
      rfl
    refine ⟨(v₁.filter (fun k => (dictGet em k).isSome)).filterMap
        (fun k => dictGet em k),
      (v₂.filter (fun k => (dictGet em k).isSome)).filterMap
        (fun k => dictGet em k),
      (v₃.filter (fun k => (dictGet em k).isSome)).filterMap
        (fun k => dictGet em k),
      eb, ea, ?_, heb, hea⟩
    rw [hfm, hfo]
    simp [List.filterMap_append, List.filterMap_cons, heb, hea]

def c9A : Entity :=
  { name := "A", chinese_name := "甲",
    relations := [("r", RelDef.newFmt { name := some "r", target := some "B" })] }

def c9B : Entity := { name := "B", chinese_name := "乙" }

def c9Es : List Entity := [c9A, c9B]

theorem claim_C9_witness :
    "A" ∈ dictKeys (buildEntityMap c9Es) ∧
    "B" ∈ depsOf (buildDeps c9Es (buildEntityMap c9Es)) "A" ∧
    (¬ Relation.ReflTransGen
      (depStep (buildDeps c9Es (buildEntityMap c9Es))) "B" "A") ∧
    (∃ l₁ l₂ l₃ eb ea,
      sortEntitiesByDependency c9Es = l₁ ++ eb :: (l₂ ++ ea :: l₃) ∧
      dictGet (buildEntityMap c9Es) "B" = some eb ∧
      dictGet (buildEntityMap c9Es) "A" = some ea) := by
  have hnc : ¬ Relation.ReflTransGen
      (depStep (buildDeps c9Es (buildEntityMap c9Es))) "B" "A" := by
    intro h
    rcases Relation.ReflTransGen.cases_head h with heq | ⟨c, hbc, _⟩
    · exact absurd heq (by decide)
    · have hempty : depsOf (buildDeps c9Es (buildEntityMap c9Es)) "B" = [] := by
        decide
      rw [depStep, hempty] at hbc
      exact absurd hbc (List.not_mem_nil c)
  exact ⟨by decide, by decide, hnc,
    claim_C9 c9Es (by decide) (by decide) hnc⟩

end Spg
